import Mathlib

/-!
Verification of the ttsfm-go TTS gateway core against its specification.

Go strings and byte slices are modelled as lists of natural numbers
(one element per byte).  All definitions are translated from the Go
source; each doc comment names the source function it embeds.
-/

/-- Bytes of a Go string or byte slice, one natural number per byte. -/
abbrev Str := List Nat

/-- ASCII whitespace: the byte set of the Go regexp character class
used by SanitizeText and, on ASCII input, of strings.TrimSpace and
strings.Fields (space, tab, newline, carriage return, form feed,
vertical tab). -/
def isSpaceB (b : Nat) : Bool :=
  b == 32 || b == 9 || b == 10 || b == 13 || b == 12 || b == 11

/-- Sentence-terminator bytes of the Go regexp used by
splitBySentences and of the HasSuffix checks in SplitTextByLength. -/
def isTermB (b : Nat) : Bool :=
  b == 46 || b == 33 || b == 63

/-- Go strings.TrimSpace on ASCII bytes: drop leading and trailing
whitespace. -/
def trimSpace (s : Str) : Str :=
  ((s.dropWhile isSpaceB).reverse.dropWhile isSpaceB).reverse

/-- Accumulator-passing core of Go strings.Fields: split on runs of
whitespace, keeping the maximal non-whitespace runs in order.  The
accumulator holds the current word reversed. -/
def splitFields : Str → Str → List Str
  | [], acc => if acc = [] then [] else [acc.reverse]
  | b :: rest, acc =>
    if isSpaceB b then
      if acc = [] then splitFields rest []
      else acc.reverse :: splitFields rest []
    else splitFields rest (b :: acc)

/-- Go strings.Fields on ASCII bytes. -/
def fields (s : Str) : List Str := splitFields s []

/-- Core of the Go splitBySentences helper: the text is cut at every
terminator byte, each piece is trimmed and empty pieces are dropped.
Cutting at every terminator byte instead of at maximal terminator runs
(the regexp split) only changes the empty pieces, which are dropped in
both cases, so the result equals the Go function output.  The
accumulator holds the current piece reversed. -/
def splitBySentencesAux : Str → Str → List Str
  | [], acc => if trimSpace acc.reverse = [] then [] else [trimSpace acc.reverse]
  | b :: rest, acc =>
    if isTermB b then
      if trimSpace acc.reverse = [] then splitBySentencesAux rest []
      else trimSpace acc.reverse :: splitBySentencesAux rest []
    else splitBySentencesAux rest (b :: acc)

/-- Go splitBySentences: split on runs of terminator bytes, trim each
part, drop empties. -/
def splitBySentences (s : Str) : List Str := splitBySentencesAux s []

/-- Slices of size k+1: the Go loop
for i := 0; i < len(text); i += maxLength { append(text[i:min(i+maxLength, len)]) }
specialised to maxLength = k+1 so that it terminates structurally. -/
def sliceChunksAux (k : Nat) : Str → List Str
  | [] => []
  | b :: rest => (b :: rest.take k) :: sliceChunksAux k (rest.drop k)
termination_by s => s.length
decreasing_by simp only [List.length_drop, List.length_cons]; omega

/-- The byte-slicing loop of Go SplitTextByLength and splitByWords,
for maxLength m.  Faithful for m at least 1; the Go loop does not
terminate for m = 0, which no caller reaches. -/
def sliceChunks (s : Str) (m : Nat) : List Str := sliceChunksAux (m - 1) s

/-- One iteration of the word loop in Go splitByWords.  The state is
(emitted chunks, current chunk). -/
def swStep (m : Nat) (st : List Str × Str) (word : Str) : List Str × Str :=
  let test := if st.2 = [] then word else st.2 ++ 32 :: word
  if test.length ≤ m then (st.1, test)
  else
    let chunks := if st.2 = [] then st.1 else st.1 ++ [st.2]
    if m < word.length then (chunks ++ sliceChunks word m, [])
    else (chunks, word)

/-- Go splitByWords: greedy packing of whitespace-separated words into
chunks of at most m bytes, byte-slicing words longer than m. -/
def splitByWords (text : Str) (m : Nat) : List Str :=
  let st := (fields text).foldl (swStep m) ([], [])
  if st.2 = [] then st.1 else st.1 ++ [st.2]

/-- One iteration of the sentence loop in Go SplitTextByLength with
preserveWords = true: trim the sentence, skip it when empty, append a
final '.' when it lacks a terminator, then accumulate greedily,
emitting the trimmed current chunk when it would overflow and falling
back to splitByWords for oversized sentences. -/
def pwStep (m : Nat) (st : List Str × Str) (sentence : Str) : List Str × Str :=
  let s0 := trimSpace sentence
  if s0 = [] then st
  else
    let s := if isTermB (s0.getLastD 0) then s0 else s0 ++ [46]
    let test := if st.2 = [] then s else st.2 ++ 32 :: s
    if test.length ≤ m then (st.1, test)
    else
      let chunks := if st.2 = [] then st.1 else st.1 ++ [trimSpace st.2]
      if m < s.length then (chunks ++ splitByWords s m, [])
      else (chunks, s)

/-- Go SplitTextByLength.  Empty text yields no chunks; text of at
most maxLength bytes is returned whole; otherwise the text is split
either sentence-wise (preserveWords) or into maxLength-byte slices,
and chunks that trim to nothing are dropped at the end. -/
def SplitTextByLength (text : Str) (maxLength : Nat) (preserveWords : Bool) : List Str :=
  if text = [] then []
  else if text.length ≤ maxLength then [text]
  else
    let chunks :=
      if preserveWords then
        let st := (splitBySentences text).foldl (pwStep maxLength) ([], [])
        if st.2 = [] then st.1 else st.1 ++ [trimSpace st.2]
      else sliceChunks text maxLength
    chunks.filter (fun c => !(trimSpace c).isEmpty)

/-- The byte set of the Go entity scan in SanitizeText that stops the
lookahead: space, tab, newline, carriage return, and the three bytes
of the angle-bracket/ampersand class. -/
def stopB (b : Nat) : Bool :=
  b == 32 || b == 9 || b == 10 || b == 13 || b == 60 || b == 62 || b == 38

/-- The character loop of Go SanitizeText.  A matched <...> is
removed; an unmatched < is kept; an ampersand either swallows a
lookahead that lands on a semicolon exactly ten bytes later or becomes
a space; quote glyphs become a double quote; a bare > is dropped; all
other bytes pass through. -/
def sanLoop : Str → Str
  | [] => []
  | b :: rest =>
    if b = 60 then
      if rest.any (fun c => c == 62) then
        sanLoop ((rest.dropWhile (fun c => c ≠ 62)).tail)
      else 60 :: sanLoop rest
    else if b = 38 then
      if 9 ≤ (rest.takeWhile (fun c => !stopB c)).length ∧ 9 < rest.length ∧ rest.getD 9 0 = 59 then
        sanLoop (rest.drop 10)
      else 32 :: sanLoop rest
    else if b = 34 ∨ b = 39 ∨ b = 96 then 34 :: sanLoop rest
    else if b = 62 then sanLoop rest
    else b :: sanLoop rest
termination_by s => s.length
decreasing_by
  all_goals simp only [List.length_cons, List.length_drop, List.length_tail]
  · have h2 : (rest.dropWhile (fun c => c ≠ 62)).length ≤ rest.length :=
      (List.dropWhile_sublist _).length_le
    omega
  all_goals omega

/-- The whitespace-collapsing regexp replacement of Go SanitizeText:
every maximal run of whitespace bytes becomes a single space. -/
def collapseWS : Str → Str
  | [] => []
  | b :: rest =>
    if isSpaceB b then 32 :: collapseWS (rest.dropWhile isSpaceB)
    else b :: collapseWS rest
termination_by s => s.length
decreasing_by
  · have h : (rest.dropWhile isSpaceB).length ≤ rest.length :=
      (List.dropWhile_sublist _).length_le
    simp only [List.length_cons]
    omega
  · simp only [List.length_cons]; omega

/-- Go SanitizeText: empty input passes through, input longer than
50000 bytes is rejected, otherwise the character loop runs, whitespace
runs are collapsed and the result is trimmed. -/
def SanitizeText (text : Str) : Option Str :=
  if text = [] then some []
  else if 50000 < text.length then none
  else some (trimSpace (collapseWS (sanLoop text)))

/-- The three magic bytes of an ID3v2 tag header. -/
def id3Magic : Str := [73, 68, 51]

/-- The syncsafe 28-bit ID3v2 size parsed by Go skipID3Tag and
discardID3v2 from bytes 6 to 9 of the tag header. -/
def syncsafeSize (d : Str) : Nat :=
  d.getD 6 0 * 2097152 + d.getD 7 0 * 16384 + d.getD 8 0 * 128 + d.getD 9 0

/-- Go skipID3Tag (offline MP3 combine): when the data is at least 10
bytes long, begins with ID3 and the declared tag end lies strictly
inside the data, drop the tag; otherwise return the data unchanged. -/
def skipID3Tag (d : Str) : Str :=
  if d.length < 10 then d
  else if d.take 3 = id3Magic then
    if syncsafeSize d + 10 < d.length then d.drop (syncsafeSize d + 10) else d
  else d

/-- Go CopyMP3Stream / CopyMP3StreamWithBuffer with skipID3 = true,
i.e. discardID3v2 followed by a full copy, on a fully materialised
stream.  Fewer than 10 bytes or no ID3 magic: pass through.  With a
tag whose declared size exceeds the stream, bufio Discard fails and
the copy returns an error (none); otherwise the tag bytes are
discarded. -/
def copyMP3SkipModel (s : Str) : Option Str :=
  if s.length < 10 then some s
  else if s.take 3 ≠ id3Magic then some s
  else if s.length < syncsafeSize s + 10 then none
  else some (s.drop (syncsafeSize s + 10))

/-- binary.LittleEndian.Uint16 on the first two bytes. -/
def parseLE16 (s : Str) : Nat := s.getD 0 0 + 256 * s.getD 1 0

/-- binary.LittleEndian.Uint32 on the first four bytes. -/
def parseLE32 (s : Str) : Nat :=
  s.getD 0 0 + 256 * s.getD 1 0 + 65536 * s.getD 2 0 + 16777216 * s.getD 3 0

/-- Little-endian serialisation of a uint16 value, as written by Go
binary.Write. -/
def le16 (n : Nat) : Str := [n % 256, n / 256 % 256]

/-- Little-endian serialisation of a uint32 value, as written by Go
binary.Write; each byte reads only bits below 32, so the Go uint32
truncation is built in. -/
def le32 (n : Nat) : Str := [n % 256, n / 256 % 256, n / 65536 % 256, n / 16777216 % 256]

/-- The bytes of "RIFF". -/
def riffMagic : Str := [82, 73, 70, 70]

/-- The bytes of "WAVE". -/
def waveMagic : Str := [87, 65, 86, 69]

/-- The bytes of the WAV chunk id "fmt " (with trailing space). -/
def fmtMagic : Str := [102, 109, 116, 32]

/-- The bytes of the WAV chunk id "data". -/
def dataMagic : Str := [100, 97, 116, 97]

/-- Go looksLikeWAV: at least 12 bytes with RIFF at offset 0 and WAVE
at offset 8. -/
def looksLikeWAV (d : Str) : Bool :=
  12 ≤ d.length && d.take 4 == riffMagic && (d.drop 8).take 4 == waveMagic

/-- The fmt-chunk fields of a WAV header, as read by Go
parseWAVHeader. -/
structure WAVHeader where
  audioFormat : Nat
  numChannels : Nat
  sampleRate : Nat
  byteRate : Nat
  blockAlign : Nat
  bitsPerSample : Nat
deriving DecidableEq

/-- The sixteen-byte fmt body parsed into a WAVHeader, as in Go
parseWAVHeader once the fmt chunk is located. -/
def parseFmtBody (b : Str) : WAVHeader :=
  { audioFormat := parseLE16 (b.take 2)
    numChannels := parseLE16 ((b.drop 2).take 2)
    sampleRate := parseLE32 ((b.drop 4).take 4)
    byteRate := parseLE32 ((b.drop 8).take 4)
    blockAlign := parseLE16 ((b.drop 12).take 2)
    bitsPerSample := parseLE16 ((b.drop 14).take 2) }

/-- The chunk walk of Go parseWAVHeader over the bytes after the
12-byte RIFF header.  The Go loop condition offset < len(data)-8
becomes: more than 8 bytes remain.  A fmt chunk that extends beyond
the data or is smaller than 16 bytes is an error. -/
def findFmt (rem : Str) : Option WAVHeader :=
  if h : 8 < rem.length then
    let csize := parseLE32 ((rem.drop 4).take 4)
    if rem.take 4 = fmtMagic then
      if rem.length < 8 + csize then none
      else if csize < 16 then none
      else some (parseFmtBody (rem.drop 8))
    else findFmt (rem.drop (8 + csize + csize % 2))
  else none
termination_by rem.length
decreasing_by simp only [List.length_drop]; omega

/-- Go parseWAVHeader: require at least 44 bytes and a RIFF/WAVE
preamble, then walk the chunks for fmt. -/
def parseWAVHeader (d : Str) : Option WAVHeader :=
  if d.length < 44 then none
  else if !looksLikeWAV d then none
  else findFmt (d.drop 12)

/-- The chunk walk of Go extractWAVData over the bytes after the
12-byte RIFF header: find the data chunk and return its payload,
truncated to the bytes actually present. -/
def findData (rem : Str) : Option Str :=
  if h : 8 < rem.length then
    let csize := parseLE32 ((rem.drop 4).take 4)
    if rem.take 4 = dataMagic then some ((rem.drop 8).take csize)
    else findData (rem.drop (8 + csize + csize % 2))
  else none
termination_by rem.length
decreasing_by simp only [List.length_drop]; omega

/-- Go extractWAVData: require at least 44 bytes and a RIFF/WAVE
preamble, then walk the chunks for data. -/
def extractWAVData (d : Str) : Option Str :=
  if d.length < 44 then none
  else if !looksLikeWAV d then none
  else findData (d.drop 12)

/-- Go buildWAVFile: a fresh 44-byte RIFF/WAVE header carrying the
given fmt fields and declared sizes, followed by the audio data. -/
def buildWAVFile (h : WAVHeader) (audioData : Str) : Str :=
  riffMagic ++ le32 (36 + audioData.length) ++ waveMagic
    ++ fmtMagic ++ le32 16
    ++ le16 h.audioFormat ++ le16 h.numChannels ++ le32 h.sampleRate
    ++ le32 h.byteRate ++ le16 h.blockAlign ++ le16 h.bitsPerSample
    ++ dataMagic ++ le32 audioData.length ++ audioData

/-- Go combineRawChunks: plain concatenation. -/
def combineRawChunks (chunks : List Str) : Str := chunks.flatten

/-- The per-chunk step of Go combineWAVChunks: extract the WAV data
payload; on failure, error out for things that look like WAV and fall
back to the raw bytes otherwise. -/
def extractOrRaw (c : Str) : Option Str :=
  match extractWAVData c with
  | some d => some d
  | none => if looksLikeWAV c then none else some c

/-- Go combineWAVChunks: parse the first chunk header (falling back to
raw concatenation when it is not WAV), extract every chunk payload and
rebuild a single WAV file. -/
def combineWAVChunks (chunks : List Str) : Option Str :=
  match parseWAVHeader (chunks.headD []) with
  | none => some (combineRawChunks chunks)
  | some h =>
    match chunks.mapM extractOrRaw with
    | none => none
    | some ds => some (buildWAVFile h ds.flatten)

/-- The chunk walk of Go CopyWAVDataStream(WithBuffer) after the
12-byte RIFF header, on a fully materialised stream.  Reading a chunk
header needs 8 bytes or the ReadFull error aborts the copy (none).  At
the data chunk, CopyN tolerates a short read, so the available payload
bytes are produced.  Discarding a non-data chunk that runs past the
end of the stream ends the copy successfully with what was written so
far (nothing). -/
def findDataStream (rem : Str) : Option Str :=
  if h : 8 ≤ rem.length then
    let csize := parseLE32 ((rem.drop 4).take 4)
    if rem.take 4 = dataMagic then some ((rem.drop 8).take csize)
    else if rem.length - 8 < csize then some []
    else findDataStream ((rem.drop (8 + csize)).drop (csize % 2))
  else none
termination_by rem.length
decreasing_by simp only [List.length_drop]; omega

/-- Go CopyWAVDataStream(WithBuffer) on a fully materialised stream:
fewer than 12 bytes aborts with the ReadFull error; a non-RIFF/WAVE
preamble is passed through whole; otherwise the data chunk payload is
produced. -/
def copyWAVDataModel (s : Str) : Option Str :=
  if s.length < 12 then none
  else if s.take 4 = riffMagic ∧ (s.drop 8).take 4 = waveMagic then
    findDataStream (s.drop 12)
  else some s

/-- The Go AudioFormat enum. -/
inductive AudioFormat
  | mp3
  | wav
  | opus
  | aac
  | flac
  | pcm
deriving DecidableEq

/-- The fields of a TTSStreamResponse that the long-text assembler
consumes: the observed format classified from the Content-Type and
the fully materialised body stream. -/
structure UpstreamResp where
  fmt : AudioFormat
  body : Str

/-- The container surgery applied by a stream copy for a given
format: ID3 skip for MP3, WAV data extraction for WAV, raw passthrough
otherwise. -/
def chunkSurgeryFor (fmt : AudioFormat) (body : Str) : Option Str :=
  match fmt with
  | .mp3 => copyMP3SkipModel body
  | .wav => copyWAVDataModel body
  | _ => some body

/-- The surgery switch of the worker in Go
GenerateSpeechLongTextStreamConcurrent, which dispatches on sr.Format,
the format observed on the chunk's own upstream response. -/
def workerSurgery (r : UpstreamResp) : Option Str := chunkSurgeryFor r.fmt r.body

/-- Modelled from the spec: the specification states that all chunks
after the first use the same surgery strategy, the one determined by
chunk 0's observed format; this definition applies the strategy of the
lead format to a later chunk's body, for comparison with the worker
switch found in the source. -/
def chunkSurgerySpecLeadFormat (fmt0 : AudioFormat) (r : UpstreamResp) : Option Str :=
  chunkSurgeryFor fmt0 r.body

/-- The per-chunk pipe store of the concurrent assembler after the
workers have completed in the given order: each completing job writes
the surgery result of its own chunk into the pipe of its own index
(io.Pipe per index in the Go source); a pipe never written holds
none, as does a pipe closed with a surgery error. -/
def fillPipes (up : Nat → UpstreamResp) (order : List Nat) : Nat → Option Str :=
  order.foldl (fun store i => Function.update store i (workerSurgery (up i))) (fun _ => none)

/-- The writer goroutine of Go GenerateSpeechLongTextStreamConcurrent:
chunk 0's body is copied verbatim, then the pipes for indices
1..N-1 are drained strictly in ascending index order; a missing or
failed pipe poisons the output. -/
def assembleBody (body0 : Str) (n : Nat) (up : Nat → UpstreamResp) (order : List Nat) : Option Str :=
  (List.range' 1 (n - 1)).foldl
    (fun acc i =>
      match acc, fillPipes up order i with
      | some a, some d => some (a ++ d)
      | _, _ => none)
    (some body0)

/-- The observable result of the concurrent long-text stream: the
declared format and the assembled byte stream. -/
structure AssembledStream where
  format : AudioFormat
  body : Option Str

/-- Go GenerateSpeechLongTextStreamConcurrent after chunking, keyed on
the synchronously fetched chunk 0 response: when that fetch fails the
call returns an error before any output stream exists; otherwise the
response's format is declared on the output and the writer assembles
the body. -/
def runConcurrentTop (n : Nat) (first : Option UpstreamResp) (up : Nat → UpstreamResp)
    (order : List Nat) : Option AssembledStream :=
  first.map (fun r => { format := r.fmt, body := assembleBody r.body n up order })

/-- One upstream attempt outcome seen by Go makeStreamRequest: a
transport error from the TLS client, or an HTTP response with a status
code. -/
inductive Outcome
  | err
  | status (code : Nat)

/-- The final result of the retry loop in Go makeStreamRequest. -/
inductive FinalResult
  | ok
  | fatalError (code : Nat)
  | exhausted
deriving DecidableEq

/-- The non-retryable statuses that Go makeStreamRequest surfaces
immediately. -/
def isFatalStatus (c : Nat) : Bool :=
  c == 400 || c == 401 || c == 403 || c == 404

/-- The retry loop of Go makeStreamRequest: the upstream outcome of
attempt i is up i; fuel is the number of loop iterations remaining
(maxRetries + 1 at the start).  Returns the number of attempts made
and the final result.  A 200 returns the stream; 400, 401, 403 and
404 surface immediately; every other outcome stores the error and
retries. -/
def retryRun (up : Nat → Outcome) : Nat → Nat → Nat × FinalResult
  | _, 0 => (0, .exhausted)
  | i, fuel + 1 =>
    match up i with
    | .err =>
      let r := retryRun up (i + 1) fuel
      (r.1 + 1, r.2)
    | .status c =>
      if c = 200 then (1, .ok)
      else if isFatalStatus c then (1, .fatalError c)
      else
        let r := retryRun up (i + 1) fuel
        (r.1 + 1, r.2)

/-- Go makeStreamRequest for a given MaxRetries configuration: the
loop runs for attempt = 0 .. maxRetries. -/
def makeStreamRequestModel (maxRetries : Nat) (up : Nat → Outcome) : Nat × FinalResult :=
  retryRun up 0 (maxRetries + 1)

/-- The eleven valid voices, as byte strings. -/
def validVoices : List Str :=
  [[97,108,108,111,121], [97,115,104], [98,97,108,108,97,100], [99,111,114,97,108],
   [101,99,104,111], [102,97,98,108,101], [110,111,118,97], [111,110,121,120],
   [115,97,103,101], [115,104,105,109,109,101,114], [118,101,114,115,101]]

/-- Go Voice.IsValid. -/
def voiceIsValid (v : Str) : Bool := validVoices.contains v

/-- The six valid audio formats, as byte strings. -/
def validFormats : List Str :=
  [[109,112,51], [119,97,118], [111,112,117,115], [97,97,99], [102,108,97,99], [112,99,109]]

/-- Go AudioFormat.IsValid. -/
def formatIsValid (f : Str) : Bool := validFormats.contains f

/-- The byte string "alloy". -/
def alloyBytes : Str := [97,108,108,111,121]

/-- The byte string "mp3". -/
def mp3Bytes : Str := [109,112,51]

/-- The routing decision taken by the Go OpenAISpeech handler before
any upstream call. -/
inductive SpeechDecision
  | missingInput
  | invalidVoice
  | invalidFormat
  | tooLong
  | longPath
  | shortPath
deriving DecidableEq

/-- The validation and routing logic of the Go OpenAISpeech handler
after JSON binding: blank voice, format and zero max_length fall back
to their defaults; a blank input is rejected first, then an invalid
voice, then an invalid format; finally input longer than max_length
goes to the long-text path when auto_combine is on, is rejected with
text_too_long when it is off, and everything else takes the short-text
path. -/
def openAISpeechDecide (input voice fmt : Str) (maxLength : Nat)
    (autoCombineDefault : Bool) (autoCombineField : Option Bool) : SpeechDecision :=
  let voice := if trimSpace voice = [] then alloyBytes else voice
  let fmt := if trimSpace fmt = [] then mp3Bytes else fmt
  let maxLength := if maxLength = 0 then 2048 else maxLength
  let autoCombine := autoCombineField.getD autoCombineDefault
  if trimSpace input = [] then .missingInput
  else if !voiceIsValid voice then .invalidVoice
  else if !formatIsValid fmt then .invalidFormat
  else if maxLength < input.length ∧ autoCombine then .longPath
  else if maxLength < input.length ∧ ¬autoCombine then .tooLong
  else .shortPath

/-- No two adjacent whitespace bytes: the relation threaded along the
output of collapseWS. -/
def noAdjWS (a b : Nat) : Prop := isSpaceB a = true → isSpaceB b = false

theorem mem_of_mem_trimSpace {b : Nat} {l : Str} (h : b ∈ trimSpace l) : b ∈ l := by
  unfold trimSpace at h
  rw [List.mem_reverse] at h
  have h1 : b ∈ (l.dropWhile isSpaceB).reverse := List.dropWhile_subset _ h
  rw [List.mem_reverse] at h1
  exact List.dropWhile_subset _ h1

theorem trimSpace_eq_nil_iff {l : Str} :
    trimSpace l = [] ↔ ∀ b ∈ l, isSpaceB b = true := by
  unfold trimSpace
  rw [List.reverse_eq_nil_iff, List.dropWhile_eq_nil_iff]
  constructor
  · intro h b hb
    have hsplit := List.takeWhile_append_dropWhile (p := isSpaceB) (l := l)
    rw [← hsplit] at hb
    rcases List.mem_append.mp hb with hb | hb
    · exact List.mem_takeWhile_imp hb
    · exact h b (List.mem_reverse.mpr hb)
  · intro h b hb
    exact h b (List.dropWhile_subset _ (List.mem_reverse.mp hb))

theorem trimSpace_length_le (l : Str) : (trimSpace l).length ≤ l.length := by
  unfold trimSpace
  rw [List.length_reverse]
  calc ((l.dropWhile isSpaceB).reverse.dropWhile isSpaceB).length
      ≤ (l.dropWhile isSpaceB).reverse.length := (List.dropWhile_sublist _).length_le
    _ = (l.dropWhile isSpaceB).length := List.length_reverse _
    _ ≤ l.length := (List.dropWhile_sublist _).length_le

theorem trimSpace_getLast?_not_space {l : Str} {a : Nat}
    (h : (trimSpace l).getLast? = some a) : isSpaceB a = false := by
  unfold trimSpace at h
  rw [List.getLast?_reverse] at h
  have := List.head?_dropWhile_not isSpaceB (l.dropWhile isSpaceB).reverse
  rw [h] at this
  exact this

theorem getLast?_of_suffix_ne_nil {l₁ l₂ : Str} (h : l₁ <:+ l₂) (hne : l₁ ≠ []) :
    l₁.getLast? = l₂.getLast? := by
  obtain ⟨t, rfl⟩ := h
  rw [List.getLast?_append]
  cases hl : l₁.getLast? with
  | none => exact absurd (List.getLast?_eq_none_iff.mp hl) hne
  | some x => rfl

theorem trimSpace_head?_not_space {l : Str} {a : Nat}
    (h : (trimSpace l).head? = some a) : isSpaceB a = false := by
  unfold trimSpace at h
  rw [List.head?_reverse] at h
  set w := l.dropWhile isSpaceB with hw
  have hne : w.reverse.dropWhile isSpaceB ≠ [] := by
    intro hnil
    rw [hnil] at h
    simp at h
  rw [getLast?_of_suffix_ne_nil (List.dropWhile_suffix _) hne] at h
  rw [List.getLast?_reverse] at h
  have := List.head?_dropWhile_not isSpaceB l
  rw [← hw, h] at this
  exact this

theorem dropWhile_eq_self_of_head {p : Nat → Bool} {l : Str}
    (h : ∀ a, l.head? = some a → p a = false) : l.dropWhile p = l := by
  cases l with
  | nil => rfl
  | cons b rest => exact List.dropWhile_cons_of_neg (by simp [h b rfl])

theorem trimSpace_eq_self {l : Str}
    (hh : ∀ a, l.head? = some a → isSpaceB a = false)
    (hl : ∀ a, l.getLast? = some a → isSpaceB a = false) : trimSpace l = l := by
  unfold trimSpace
  rw [dropWhile_eq_self_of_head hh]
  rw [dropWhile_eq_self_of_head (by intro a ha; rw [List.head?_reverse] at ha; exact hl a ha)]
  exact List.reverse_reverse l

theorem trimSpace_idem (l : Str) : trimSpace (trimSpace l) = trimSpace l :=
  trimSpace_eq_self (fun _ h => trimSpace_head?_not_space h)
    (fun _ h => trimSpace_getLast?_not_space h)

theorem trimSpace_ne_nil_of_mem {b : Nat} {l : Str} (hb : b ∈ l)
    (hns : isSpaceB b = false) : trimSpace l ≠ [] := by
  intro h
  have := trimSpace_eq_nil_iff.mp h b hb
  rw [hns] at this
  exact Bool.false_ne_true this

theorem sliceChunksAux_flatten (k : Nat) (s : Str) : (sliceChunksAux k s).flatten = s := by
  induction s using sliceChunksAux.induct k with
  | case1 => simp [sliceChunksAux]
  | case2 b rest ih =>
    simp only [sliceChunksAux, List.flatten_cons, ih]
    rw [List.cons_append, List.take_append_drop]

theorem sliceChunksAux_eq_nil_iff (k : Nat) (s : Str) : sliceChunksAux k s = [] ↔ s = [] := by
  cases s <;> simp [sliceChunksAux]

theorem sliceChunksAux_length_bound (k : Nat) (s : Str) :
    ∀ c ∈ sliceChunksAux k s, c ≠ [] ∧ c.length ≤ k + 1 := by
  induction s using sliceChunksAux.induct k with
  | case1 => simp [sliceChunksAux]
  | case2 b rest ih =>
    intro c hc
    simp only [sliceChunksAux, List.mem_cons] at hc
    rcases hc with rfl | hc
    · refine ⟨by simp, ?_⟩
      simp only [List.length_cons, List.length_take]
      omega
    · exact ih c hc

theorem sliceChunksAux_dropLast (k : Nat) (s : Str) :
    ∀ c ∈ (sliceChunksAux k s).dropLast, c.length = k + 1 := by
  induction s using sliceChunksAux.induct k with
  | case1 => simp [sliceChunksAux]
  | case2 b rest ih =>
    intro c hc
    rw [sliceChunksAux] at hc
    by_cases hrest : rest.drop k = []
    · rw [hrest] at hc
      simp [sliceChunksAux] at hc
    · have hne : sliceChunksAux k (rest.drop k) ≠ [] := by
        rw [Ne, sliceChunksAux_eq_nil_iff]; exact hrest
      rw [List.dropLast_cons_of_ne_nil hne, List.mem_cons] at hc
      rcases hc with rfl | hc
      · have hlen : k < rest.length := by
          by_contra hlt
          exact hrest (List.drop_eq_nil_of_le (by omega))
        simp only [List.length_cons, List.length_take]
        omega
      · exact ih c hc

/-- C10: a non-empty text of at most maxLength bytes is returned as the
single chunk [text] by SplitTextByLength, for both preserveWords
settings; no sentence splitting, trimming or terminal-dot insertion
touches it. -/
theorem splitTextByLength_short_passthrough (text : Str) (maxLength : Nat) (pw : Bool)
    (hne : text ≠ []) (hlen : text.length ≤ maxLength) :
    SplitTextByLength text maxLength pw = [text] := by
  unfold SplitTextByLength
  rw [if_neg hne, if_pos hlen]

theorem splitTextByLength_short_passthrough_witness :
    ([104, 105] : Str) ≠ [] ∧ ([104, 105] : Str).length ≤ 5 ∧
      SplitTextByLength [104, 105] 5 true = [[104, 105]] :=
  ⟨by decide, by decide,
    splitTextByLength_short_passthrough [104, 105] 5 true (by decide) (by decide)⟩

/-- C3 counterexample: with preserveWords disabled, maxLength 1 and
the five-byte input "a    " (one letter followed by four spaces), the
whitespace-only slices are dropped, so the concatenation of the
returned chunks is [97] and differs from the input. -/
theorem splitTextByLength_concat_counterexample :
    (SplitTextByLength [97, 32, 32, 32, 32] 1 false).flatten ≠ [97, 32, 32, 32, 32] := by
  simp [SplitTextByLength, sliceChunks, sliceChunksAux, trimSpace, isSpaceB]

/-- C3 amended: with preserveWords disabled and maxLength m > 0, every
returned chunk is a non-empty byte-aligned slice of at most m bytes,
every returned chunk except the last has exactly m bytes, and the
concatenation of the returned chunks equals the input whenever no
m-byte slice of the input is whitespace-only (the filter at the end of
SplitTextByLength drops whitespace-only slices, which is the only way
bytes are lost). -/
theorem splitTextByLength_false_long_eq (text : Str) (m : Nat) (hnil : text ≠ [])
    (hlong : ¬text.length ≤ m) :
    SplitTextByLength text m false
      = (sliceChunks text m).filter (fun c => !(trimSpace c).isEmpty) := by
  unfold SplitTextByLength
  rw [if_neg hnil, if_neg hlong]
  rfl

/-- C3 amended: with preserveWords disabled and maxLength m > 0, every
returned chunk is a non-empty byte-aligned slice of at most m bytes,
every returned chunk except the last has exactly m bytes, and the
concatenation of the returned chunks equals the input whenever no
m-byte slice of the input is whitespace-only (the filter at the end of
SplitTextByLength drops whitespace-only slices, which is the only way
bytes are lost). -/
theorem splitTextByLength_noPreserve_amended (text : Str) (m : Nat) (hm : 0 < m) :
    (∀ c ∈ (SplitTextByLength text m false).dropLast, c.length = m)
    ∧ (∀ c ∈ SplitTextByLength text m false, c ≠ [] ∧ c.length ≤ m)
    ∧ ((∀ c ∈ sliceChunks text m, (trimSpace c).isEmpty = false) →
        (SplitTextByLength text m false).flatten = text) := by
  by_cases hnil : text = []
  · subst hnil
    simp [SplitTextByLength]
  · by_cases hshort : text.length ≤ m
    · have heq : SplitTextByLength text m false = [text] := by
        unfold SplitTextByLength
        rw [if_neg hnil, if_pos hshort]
      rw [heq]
      refine ⟨by simp, ?_, by simp⟩
      intro c hc
      rw [List.mem_singleton] at hc
      subst hc
      exact ⟨hnil, hshort⟩
    · rw [splitTextByLength_false_long_eq text m hnil hshort]
      have hmk : m - 1 + 1 = m := by omega
      refine ⟨?_, ?_, ?_⟩
      · intro c hc
        rcases List.eq_nil_or_concat (sliceChunks text m) with hsl | ⟨ys, y, hsl⟩
        · rw [hsl] at hc
          simp at hc
        · rw [List.concat_eq_append] at hsl
          rw [hsl, List.filter_append] at hc
          by_cases hy : (!(trimSpace y).isEmpty) = true
          · rw [List.filter_singleton] at hc
            rw [hy, cond_true, List.dropLast_concat] at hc
            have hcy : c ∈ ys := (List.filter_sublist _).subset hc
            have hmem : c ∈ (sliceChunks text m).dropLast := by
              rw [hsl, List.dropLast_concat]
              exact hcy
            have := sliceChunksAux_dropLast (m - 1) text c hmem
            omega
          · have hy' : (!(trimSpace y).isEmpty) = false := by
              revert hy
              cases (!(trimSpace y).isEmpty) <;> simp
            rw [List.filter_singleton] at hc
            rw [hy', cond_false, List.append_nil] at hc
            have hcy : c ∈ ys :=
              (List.filter_sublist _).subset ((List.dropLast_sublist _).subset hc)
            have hmem : c ∈ (sliceChunks text m).dropLast := by
              rw [hsl, List.dropLast_concat]
              exact hcy
            have := sliceChunksAux_dropLast (m - 1) text c hmem
            omega
      · intro c hc
        have hmem : c ∈ sliceChunks text m := (List.filter_sublist _).subset hc
        have := sliceChunksAux_length_bound (m - 1) text c hmem
        exact ⟨this.1, by omega⟩
      · intro hall
        rw [List.filter_eq_self.mpr (by intro a ha; rw [hall a ha]; rfl)]
        exact sliceChunksAux_flatten (m - 1) text

theorem splitTextByLength_noPreserve_amended_witness :
    (0 : Nat) < 2 ∧ (SplitTextByLength [97, 98, 99] 2 false).flatten = [97, 98, 99] :=
  ⟨by decide,
    (splitTextByLength_noPreserve_amended [97, 98, 99] 2 (by decide)).2.2
      (by simp [sliceChunks, sliceChunksAux, trimSpace, isSpaceB])⟩

/-- C4 counterexample: a ten-byte ID3v2 tag with declared size zero
followed by the three bytes "ID3".  skipID3Tag removes only the
leading tag, so the output starts with "ID3" again. -/
theorem skipID3Tag_counterexample :
    (skipID3Tag [73, 68, 51, 0, 0, 0, 0, 0, 0, 0, 73, 68, 51]).take 3 = id3Magic := by
  decide

/-- C4 amended: skipID3Tag removes exactly the leading ID3v2 tag when
one is present and its declared end lies strictly inside the data, and
returns the input bit-identical otherwise (no tag, short input, or a
tag whose declared end reaches or passes the end of the data).  The
first three output bytes are not "ID3" only under the extra condition
that the bytes after the removed tag do not themselves start with
"ID3".  The streaming variant (discardID3v2 inside CopyMP3Stream)
passes short or untagged input through unchanged as well. -/
theorem skipID3Tag_amended (d : Str) :
    (d.length < 10 → skipID3Tag d = d)
    ∧ (d.take 3 ≠ id3Magic → skipID3Tag d = d)
    ∧ (d.take 3 = id3Magic → syncsafeSize d + 10 < d.length →
        skipID3Tag d = d.drop (syncsafeSize d + 10))
    ∧ (d.take 3 = id3Magic → d.length ≤ syncsafeSize d + 10 → skipID3Tag d = d)
    ∧ (d.take 3 = id3Magic → syncsafeSize d + 10 < d.length →
        (d.drop (syncsafeSize d + 10)).take 3 ≠ id3Magic →
        (skipID3Tag d).take 3 ≠ id3Magic)
    ∧ (d.length < 10 → copyMP3SkipModel d = some d)
    ∧ (d.take 3 ≠ id3Magic → copyMP3SkipModel d = some d) := by
  refine ⟨?_, ?_, ?_, ?_, ?_, ?_, ?_⟩
  · intro h
    unfold skipID3Tag
    rw [if_pos h]
  · intro h
    unfold skipID3Tag
    by_cases hlen : d.length < 10
    · rw [if_pos hlen]
    · rw [if_neg hlen, if_neg h]
  · intro h3 hlt
    unfold skipID3Tag
    rw [if_neg (by omega), if_pos h3, if_pos hlt]
  · intro h3 hge
    unfold skipID3Tag
    by_cases hlen : d.length < 10
    · rw [if_pos hlen]
    · rw [if_neg hlen, if_pos h3, if_neg (by omega)]
  · intro h3 hlt hafter
    unfold skipID3Tag
    rw [if_neg (by omega), if_pos h3, if_pos hlt]
    exact hafter
  · intro h
    unfold copyMP3SkipModel
    rw [if_pos h]
  · intro h
    unfold copyMP3SkipModel
    by_cases hlen : d.length < 10
    · rw [if_pos hlen]
    · rw [if_neg hlen, if_pos h]

theorem skipID3Tag_amended_witness :
    ([255, 251, 144, 0] : Str).take 3 ≠ id3Magic ∧
      skipID3Tag [255, 251, 144, 0] = [255, 251, 144, 0] ∧
      skipID3Tag [73, 68, 51, 0, 0, 0, 0, 0, 0, 0, 255, 251] = [255, 251] :=
  ⟨by decide, (skipID3Tag_amended [255, 251, 144, 0]).2.1 (by decide),
    by
      have h := ((skipID3Tag_amended [73, 68, 51, 0, 0, 0, 0, 0, 0, 0, 255, 251]).2.2.1
        (by decide) (by decide))
      rw [h]
      decide⟩

/-- C6 counterexample: with maxRetries = 1 and an upstream that
answers 418 on the first attempt and 200 on the second,
makeStreamRequest makes two attempts and succeeds, even though 418 is
not in the retryable status set {429, 500, 502, 503, 504} claimed by
the specification. -/
theorem makeStreamRequest_retry_counterexample :
    (makeStreamRequestModel 1 (fun i => if i = 0 then .status 418 else .status 200)).1 = 2
    ∧ (418 ∈ ([429, 500, 502, 503, 504] : List Nat)) = False := by
  constructor
  · decide
  · simp

theorem retryRun_attempts_le (up : Nat → Outcome) (i fuel : Nat) :
    (retryRun up i fuel).1 ≤ fuel := by
  induction fuel generalizing i with
  | zero => simp [retryRun]
  | succ n ih =>
    unfold retryRun
    match up i with
    | .err => simpa using ih (i + 1)
    | .status c =>
      by_cases h200 : c = 200
      · simp [h200]
      · by_cases hfatal : isFatalStatus c = true
        · simp [h200, hfatal]
        · simpa [h200, hfatal] using ih (i + 1)

theorem retryRun_step_status (up : Nat → Outcome) (i fuel c : Nat) (hc : up i = .status c)
    (h200 : c ≠ 200) (hf : isFatalStatus c = false) :
    retryRun up i (fuel + 1)
      = ((retryRun up (i + 1) fuel).1 + 1, (retryRun up (i + 1) fuel).2) := by
  conv_lhs => rw [retryRun]
  rw [hc]
  simp [h200, hf]

theorem retryRun_step_err (up : Nat → Outcome) (i fuel : Nat) (hc : up i = .err) :
    retryRun up i (fuel + 1)
      = ((retryRun up (i + 1) fuel).1 + 1, (retryRun up (i + 1) fuel).2) := by
  conv_lhs => rw [retryRun]
  rw [hc]

theorem retryRun_attempts_pos (up : Nat → Outcome) (i fuel : Nat) (h : 0 < fuel) :
    1 ≤ (retryRun up i fuel).1 := by
  match fuel, h with
  | n + 1, _ =>
    unfold retryRun
    match up i with
    | .err => simp
    | .status c =>
      by_cases h200 : c = 200
      · simp [h200]
      · by_cases hfatal : isFatalStatus c = true
        · simp [h200, hfatal]
        · simp [h200, hfatal]

/-- C6 amended: makeStreamRequest makes at most maxRetries + 1
attempts; a response status in {400, 401, 403, 404} on the first
attempt yields exactly one attempt and surfaces the classified error;
a 200 yields one attempt and the stream; and a transport error or ANY
other status (not only those in {429, 500, 502, 503, 504}; for
example 418 or 302) is retried whenever attempts remain. -/
theorem makeStreamRequest_retry_amended (maxRetries : Nat) (up : Nat → Outcome) :
    ((makeStreamRequestModel maxRetries up).1 ≤ maxRetries + 1)
    ∧ (∀ c, up 0 = .status c → isFatalStatus c = true →
        makeStreamRequestModel maxRetries up = (1, .fatalError c))
    ∧ (up 0 = .status 200 → makeStreamRequestModel maxRetries up = (1, .ok))
    ∧ (∀ c, up 0 = .status c → c ≠ 200 → isFatalStatus c = false → 1 ≤ maxRetries →
        2 ≤ (makeStreamRequestModel maxRetries up).1)
    ∧ (up 0 = .err → 1 ≤ maxRetries → 2 ≤ (makeStreamRequestModel maxRetries up).1) := by
  refine ⟨?_, ?_, ?_, ?_, ?_⟩
  · exact retryRun_attempts_le up 0 (maxRetries + 1)
  · intro c hc hfatal
    have h200 : c ≠ 200 := by
      intro h
      rw [h] at hfatal
      simp [isFatalStatus] at hfatal
    unfold makeStreamRequestModel retryRun
    rw [hc]
    simp [h200, hfatal]
  · intro hc
    unfold makeStreamRequestModel retryRun
    rw [hc]
    simp
  · intro c hc h200 hfatal hmr
    unfold makeStreamRequestModel
    rw [retryRun_step_status up 0 maxRetries c hc h200 hfatal]
    have := retryRun_attempts_pos up 1 maxRetries (by omega)
    simpa using this
  · intro hc hmr
    unfold makeStreamRequestModel
    rw [retryRun_step_err up 0 maxRetries hc]
    have := retryRun_attempts_pos up 1 maxRetries (by omega)
    simpa using this

theorem makeStreamRequest_retry_amended_witness :
    makeStreamRequestModel 3 (fun _ => .status 404) = (1, .fatalError 404) ∧
      makeStreamRequestModel 3 (fun _ => .status 200) = (1, .ok) :=
  ⟨(makeStreamRequest_retry_amended 3 (fun _ => .status 404)).2.1 404 rfl (by decide),
    (makeStreamRequest_retry_amended 3 (fun _ => .status 200)).2.2.1 rfl⟩

/-- C8 counterexample: a request whose input "aa" exceeds max_length 1
with auto_combine false but whose voice "x" is invalid is answered
with invalid_voice, not text_too_long: the handler validates input,
voice and format before the length check. -/
theorem openAISpeech_tooLong_counterexample :
    openAISpeechDecide [97, 97] [120] mp3Bytes 1 true (some false) = .invalidVoice
    ∧ SpeechDecision.invalidVoice ≠ SpeechDecision.tooLong := by
  constructor
  · decide
  · decide

/-- C8 amended: for a request that passes the earlier validations
(input not blank, defaulted voice valid, defaulted format valid), the
handler answers 400 text_too_long when the input is longer than the
effective max_length and auto_combine resolves to false, and takes the
short-text path (one upstream stream copied to the client, before any
upstream call is made in either 400 case) when the input fits. -/
theorem openAISpeech_tooLong_amended (input voice fmt : Str) (maxLength : Nat)
    (acDefault : Bool) (acField : Option Bool)
    (hinput : trimSpace input ≠ [])
    (hvoice : voiceIsValid (if trimSpace voice = [] then alloyBytes else voice) = true)
    (hfmt : formatIsValid (if trimSpace fmt = [] then mp3Bytes else fmt) = true) :
    ((if maxLength = 0 then 2048 else maxLength) < input.length →
      acField.getD acDefault = false →
      openAISpeechDecide input voice fmt maxLength acDefault acField = .tooLong)
    ∧ (input.length ≤ (if maxLength = 0 then 2048 else maxLength) →
      openAISpeechDecide input voice fmt maxLength acDefault acField = .shortPath) := by
  constructor
  · intro hlen hac
    unfold openAISpeechDecide
    rw [if_neg hinput]
    rw [if_neg (by rw [hvoice]; simp)]
    rw [if_neg (by rw [hfmt]; simp)]
    rw [if_neg (by rw [hac]; simp)]
    rw [if_pos (by rw [hac]; exact ⟨hlen, by simp⟩)]
  · intro hlen
    unfold openAISpeechDecide
    rw [if_neg hinput]
    rw [if_neg (by rw [hvoice]; simp)]
    rw [if_neg (by rw [hfmt]; simp)]
    rw [if_neg (by intro h; omega)]
    rw [if_neg (by intro h; omega)]

theorem openAISpeech_tooLong_amended_witness :
    openAISpeechDecide [97, 97] alloyBytes mp3Bytes 1 true (some false) = .tooLong ∧
      openAISpeechDecide [97, 97] alloyBytes mp3Bytes 2 true (some false) = .shortPath :=
  ⟨(openAISpeech_tooLong_amended [97, 97] alloyBytes mp3Bytes 1 true (some false)
      (by decide) (by decide) (by decide)).1 (by decide) (by decide),
    (openAISpeech_tooLong_amended [97, 97] alloyBytes mp3Bytes 2 true (some false)
      (by decide) (by decide) (by decide)).2 (by decide)⟩

theorem foldl_update_not_mem (g : Nat → Option Str) (l : List Nat)
    (init : Nat → Option Str) (i : Nat) (hi : i ∉ l) :
    (l.foldl (fun st j => Function.update st j (g j)) init) i = init i := by
  induction l generalizing init with
  | nil => rfl
  | cons j tl ih =>
    rw [List.foldl_cons]
    have hij : i ≠ j := by
      intro h
      exact hi (h ▸ List.mem_cons_self j tl)
    rw [ih _ (fun h => hi (List.mem_cons_of_mem j h))]
    exact Function.update_noteq hij _ _

theorem foldl_update_mem (g : Nat → Option Str) (l : List Nat)
    (init : Nat → Option Str) (i : Nat) (hi : i ∈ l) (hnd : l.Nodup) :
    (l.foldl (fun st j => Function.update st j (g j)) init) i = g i := by
  induction l generalizing init with
  | nil => cases hi
  | cons j tl ih =>
    rw [List.foldl_cons]
    rcases List.mem_cons.mp hi with rfl | hitl
    · have hnotin : i ∉ tl := (List.nodup_cons.mp hnd).1
      rw [foldl_update_not_mem _ _ _ _ hnotin]
      exact Function.update_same i _ _
    · exact ih _ hitl (List.nodup_cons.mp hnd).2

theorem fillPipes_eq_of_mem (up : Nat → UpstreamResp) (order : List Nat) (i : Nat)
    (hi : i ∈ order) (hnd : order.Nodup) :
    fillPipes up order i = workerSurgery (up i) :=
  foldl_update_mem (fun j => workerSurgery (up j)) order _ i hi hnd

theorem assemble_foldl_some (store : Nat → Option Str) (s : Nat → Str) (l : List Nat)
    (hall : ∀ i ∈ l, store i = some (s i)) (acc : Str) :
    l.foldl
      (fun acc i =>
        match acc, store i with
        | some a, some d => some (a ++ d)
        | _, _ => none)
      (some acc)
      = some (acc ++ (l.map s).flatten) := by
  induction l generalizing acc with
  | nil => simp
  | cons j tl ih =>
    rw [List.foldl_cons, hall j (List.mem_cons_self j tl)]
    rw [ih (fun i hi => hall i (List.mem_cons_of_mem j hi)) (acc ++ s j)]
    simp

theorem assembleBody_eq_ordered (r0 : UpstreamResp) (n : Nat) (up : Nat → UpstreamResp)
    (order : List Nat) (ss : Nat → Str)
    (horder : order.Perm (List.range' 1 (n - 1)))
    (hs : ∀ i ∈ List.range' 1 (n - 1), workerSurgery (up i) = some (ss i)) :
    assembleBody r0.body n up order
      = some (r0.body ++ ((List.range' 1 (n - 1)).map ss).flatten) := by
  unfold assembleBody
  have hnd : order.Nodup := horder.nodup_iff.mpr (List.nodup_range' 1 (n - 1))
  refine assemble_foldl_some (fillPipes up order) ss (List.range' 1 (n - 1)) ?_ r0.body
  intro i hi
  rw [fillPipes_eq_of_mem up order i (horder.mem_iff.mpr hi) hnd]
  exact hs i hi

/-- C1: for a long-text request with N = chunks.length at least 2
chunks, whatever order the worker jobs for indices 1..N-1 complete in
(any permutation), the assembled output stream is exactly chunk 0's
body verbatim followed by the per-chunk surgery results in ascending
chunk index order. -/
theorem longTextStreamConcurrent_ordered (chunks : List Str) (r0 : UpstreamResp)
    (up : Nat → UpstreamResp) (order : List Nat) (ss : Nat → Str)
    (_hN : 2 ≤ chunks.length)
    (horder : order.Perm (List.range' 1 (chunks.length - 1)))
    (hs : ∀ i ∈ List.range' 1 (chunks.length - 1), workerSurgery (up i) = some (ss i)) :
    assembleBody r0.body chunks.length up order
      = some (r0.body ++ ((List.range' 1 (chunks.length - 1)).map ss).flatten) :=
  assembleBody_eq_ordered r0 chunks.length up order ss horder hs

theorem longTextStreamConcurrent_ordered_witness :
    assembleBody [1, 2] 2 (fun _ => ⟨.mp3, [3, 4]⟩) [1] = some [1, 2, 3, 4] := by
  have h := longTextStreamConcurrent_ordered [[104, 105], [121, 111]] ⟨.mp3, [1, 2]⟩
    (fun _ => ⟨.mp3, [3, 4]⟩) [1] (fun _ => [3, 4]) (by decide) (by decide)
    (by
      intro i hi
      simp [workerSurgery, chunkSurgeryFor, copyMP3SkipModel])
  simpa using h

/-- C2 counterexample: chunk 0 observed as MP3 while chunk 1's own
response is WAV.  The worker dispatches on the chunk's own format and
extracts the WAV data payload [5, 6], whereas the strategy determined
by chunk 0's format (MP3 ID3 skip) would pass the whole WAV container
through; the two results differ, so later chunks are not processed
with chunk 0's strategy. -/
theorem workerSurgery_leadFormat_counterexample :
    workerSurgery ⟨.wav, buildWAVFile ⟨1, 1, 8000, 8000, 1, 8⟩ [5, 6]⟩
      ≠ chunkSurgerySpecLeadFormat .mp3 ⟨.wav, buildWAVFile ⟨1, 1, 8000, 8000, 1, 8⟩ [5, 6]⟩ := by
  simp [workerSurgery, chunkSurgerySpecLeadFormat, chunkSurgeryFor, copyWAVDataModel,
    copyMP3SkipModel, buildWAVFile, le16, le32, riffMagic, waveMagic, fmtMagic, dataMagic,
    findDataStream, parseLE32, syncsafeSize, id3Magic]

/-- C2 amended: chunk 0 is fetched before the workers start and a
failure there yields an error before any output stream exists; its
observed format is the one declared on the output stream; but each
subsequent chunk is processed with the surgery strategy of its own
response format (sr.Format in the worker), not chunk 0's, and with
those per-chunk surgeries the output is chunk 0's body followed by the
surgery results in chunk order. -/
theorem longTextStreamConcurrent_format_amended (chunks : List Str) (r0 : UpstreamResp)
    (up : Nat → UpstreamResp) (order : List Nat) (ss : Nat → Str)
    (_hN : 2 ≤ chunks.length)
    (horder : order.Perm (List.range' 1 (chunks.length - 1)))
    (hs : ∀ i ∈ List.range' 1 (chunks.length - 1),
      chunkSurgeryFor (up i).fmt (up i).body = some (ss i)) :
    runConcurrentTop chunks.length (some r0) up order
      = some { format := r0.fmt,
               body := some (r0.body ++ ((List.range' 1 (chunks.length - 1)).map ss).flatten) }
    ∧ runConcurrentTop chunks.length none up order = none := by
  constructor
  · unfold runConcurrentTop
    rw [Option.map_some']
    rw [assembleBody_eq_ordered r0 chunks.length up order ss horder (fun i hi => hs i hi)]
  · rfl

theorem longTextStreamConcurrent_format_amended_witness :
    runConcurrentTop 2 (some ⟨.mp3, [9]⟩) (fun _ => ⟨.opus, [7, 8]⟩) [1]
      = some { format := .mp3, body := some [9, 7, 8] } := by
  have h := (longTextStreamConcurrent_format_amended [[104], [105]] ⟨.mp3, [9]⟩
    (fun _ => ⟨.opus, [7, 8]⟩) [1] (fun _ => [7, 8]) (by decide) (by decide)
    (by intro i hi; rfl)).1
  simpa using h

theorem mapM_extractOrRaw_of_extract (l : List Str) (ds : List Str)
    (h : l.mapM extractWAVData = some ds) : l.mapM extractOrRaw = some ds := by
  induction l generalizing ds with
  | nil => simpa using h
  | cons c cs ih =>
    rw [List.mapM_cons] at h ⊢
    cases hx : extractWAVData c with
    | none => rw [hx] at h; simp at h
    | some d =>
      rw [hx] at h
      cases hy : cs.mapM extractWAVData with
      | none => rw [hy] at h; simp at h
      | some ds2 =>
        rw [hy] at h
        simp only [Option.bind_some, Option.pure_def] at h
        have hor : extractOrRaw c = some d := by
          unfold extractOrRaw
          rw [hx]
        rw [hor, ih ds2 hy]
        simpa using h

/-- C5: for a non-empty chunk list whose head has the canonical
RIFF/WAVE layout with a 16-byte fmt body (bytes f0..f15) at offset 20,
and from which every chunk yields a data payload (the list ds), the
offline combine produces a file that starts with RIFF, carries WAVE at
bytes 8-11, declares fileSize = total length - 8 and dataSize = the
sum of the payload sizes, preserves the head chunk's fmt body
verbatim at bytes 20-35, and has total length 44 plus the sum of the
payload lengths. -/
theorem combineWAVChunks_valid
    (s0 s1 s2 s3 f0 f1 f2 f3 f4 f5 f6 f7 f8 f9 f10 f11 f12 f13 f14 f15 : Nat)
    (tl : Str) (rest ds : List Str)
    (hfb : ∀ b ∈ [f0, f1, f2, f3, f4, f5, f6, f7, f8, f9, f10, f11, f12, f13, f14, f15], b < 256)
    (htl : 8 ≤ tl.length)
    (hmapM : (([82, 73, 70, 70, s0, s1, s2, s3, 87, 65, 86, 69, 102, 109, 116, 32, 16, 0, 0, 0,
        f0, f1, f2, f3, f4, f5, f6, f7, f8, f9, f10, f11, f12, f13, f14, f15] ++ tl) :: rest).mapM
        extractWAVData = some ds)
    (_hsame : ∀ c ∈ (([82, 73, 70, 70, s0, s1, s2, s3, 87, 65, 86, 69, 102, 109, 116, 32,
        16, 0, 0, 0, f0, f1, f2, f3, f4, f5, f6, f7, f8, f9, f10, f11, f12, f13, f14, f15]
        ++ tl) :: rest),
      parseWAVHeader c = parseWAVHeader ([82, 73, 70, 70, s0, s1, s2, s3, 87, 65, 86, 69,
        102, 109, 116, 32, 16, 0, 0, 0, f0, f1, f2, f3, f4, f5, f6, f7, f8, f9, f10, f11,
        f12, f13, f14, f15] ++ tl)) :
    ∃ out,
      combineWAVChunks (([82, 73, 70, 70, s0, s1, s2, s3, 87, 65, 86, 69, 102, 109, 116, 32,
          16, 0, 0, 0, f0, f1, f2, f3, f4, f5, f6, f7, f8, f9, f10, f11, f12, f13, f14, f15]
          ++ tl) :: rest) = some out
      ∧ out.take 4 = riffMagic
      ∧ (out.drop 8).take 4 = waveMagic
      ∧ out.length = 44 + (ds.map List.length).sum
      ∧ (out.drop 4).take 4 = le32 (out.length - 8)
      ∧ (out.drop 40).take 4 = le32 ((ds.map List.length).sum)
      ∧ (out.drop 20).take 16
          = [f0, f1, f2, f3, f4, f5, f6, f7, f8, f9, f10, f11, f12, f13, f14, f15] := by
  have h0 := hfb f0 (by simp)
  have h1 := hfb f1 (by simp)
  have h2 := hfb f2 (by simp)
  have h3 := hfb f3 (by simp)
  have h4 := hfb f4 (by simp)
  have h5 := hfb f5 (by simp)
  have h6 := hfb f6 (by simp)
  have h7 := hfb f7 (by simp)
  have h8 := hfb f8 (by simp)
  have h9 := hfb f9 (by simp)
  have h10 := hfb f10 (by simp)
  have h11 := hfb f11 (by simp)
  have h12 := hfb f12 (by simp)
  have h13 := hfb f13 (by simp)
  have h14 := hfb f14 (by simp)
  have h15 := hfb f15 (by simp)
  have hparse : parseWAVHeader ([82, 73, 70, 70, s0, s1, s2, s3, 87, 65, 86, 69,
      102, 109, 116, 32, 16, 0, 0, 0, f0, f1, f2, f3, f4, f5, f6, f7, f8, f9, f10, f11,
      f12, f13, f14, f15] ++ tl)
      = some (parseFmtBody
          ([f0, f1, f2, f3, f4, f5, f6, f7, f8, f9, f10, f11, f12, f13, f14, f15] ++ tl)) := by
    unfold parseWAVHeader
    rw [if_neg (by simp [List.length_append]; omega)]
    rw [if_neg (by simp [looksLikeWAV, riffMagic, waveMagic, List.length_append])]
    rw [findFmt]
    rw [dif_pos (by simp [List.length_append])]
    simp [fmtMagic, parseLE32, List.length_append]
  refine ⟨buildWAVFile (parseFmtBody
      ([f0, f1, f2, f3, f4, f5, f6, f7, f8, f9, f10, f11, f12, f13, f14, f15] ++ tl))
      ds.flatten, ?_, ?_, ?_, ?_, ?_, ?_, ?_⟩
  · unfold combineWAVChunks
    rw [List.headD_cons, hparse, mapM_extractOrRaw_of_extract _ _ hmapM]
  · simp [buildWAVFile, le16, le32, riffMagic]
  · simp [buildWAVFile, le16, le32, riffMagic, waveMagic]
  · simp [buildWAVFile, le16, le32, riffMagic, waveMagic, fmtMagic, dataMagic]
    omega
  · have hlen : (buildWAVFile (parseFmtBody
        ([f0, f1, f2, f3, f4, f5, f6, f7, f8, f9, f10, f11, f12, f13, f14, f15] ++ tl))
        ds.flatten).length = 44 + ds.flatten.length := by
      simp [buildWAVFile, le16, le32, riffMagic, waveMagic, fmtMagic, dataMagic]
      omega
    rw [hlen]
    have harith : 44 + ds.flatten.length - 8 = 36 + ds.flatten.length := by omega
    rw [harith]
    simp [buildWAVFile, le16, le32, riffMagic, waveMagic]
  · have hflat : (ds.map List.length).sum = ds.flatten.length := (List.length_flatten ds).symm
    rw [hflat]
    simp [buildWAVFile, le16, le32, riffMagic, waveMagic, fmtMagic, dataMagic]
  · simp [buildWAVFile, parseFmtBody, parseLE16, parseLE32, le16, le32,
      riffMagic, waveMagic, fmtMagic, dataMagic]
    omega

theorem combineWAVChunks_valid_witness :
    ∃ out,
      combineWAVChunks (([82, 73, 70, 70, 0, 0, 0, 0, 87, 65, 86, 69, 102, 109, 116, 32,
          16, 0, 0, 0, 1, 0, 1, 0, 64, 31, 0, 0, 64, 31, 0, 0, 1, 0, 8, 0]
          ++ [100, 97, 116, 97, 4, 0, 0, 0, 1, 2, 3, 4])
          :: [[82, 73, 70, 70, 0, 0, 0, 0, 87, 65, 86, 69, 102, 109, 116, 32,
          16, 0, 0, 0, 1, 0, 1, 0, 64, 31, 0, 0, 64, 31, 0, 0, 1, 0, 8, 0,
          100, 97, 116, 97, 2, 0, 0, 0, 5, 6]]) = some out
      ∧ out.take 4 = riffMagic
      ∧ out.length = 44 + (([[1, 2, 3, 4], [5, 6]].map List.length).sum) := by
  obtain ⟨out, hcomb, hriff, _, hlen, _⟩ :=
    combineWAVChunks_valid 0 0 0 0 1 0 1 0 64 31 0 0 64 31 0 0 1 0 8 0
      [100, 97, 116, 97, 4, 0, 0, 0, 1, 2, 3, 4]
      [[82, 73, 70, 70, 0, 0, 0, 0, 87, 65, 86, 69, 102, 109, 116, 32,
        16, 0, 0, 0, 1, 0, 1, 0, 64, 31, 0, 0, 64, 31, 0, 0, 1, 0, 8, 0,
        100, 97, 116, 97, 2, 0, 0, 0, 5, 6]]
      [[1, 2, 3, 4], [5, 6]]
      (by decide) (by decide)
      (by
        simp only [List.mapM_cons, List.mapM_nil]
        rw [show extractWAVData ([82, 73, 70, 70, 0, 0, 0, 0, 87, 65, 86, 69, 102, 109, 116, 32,
            16, 0, 0, 0, 1, 0, 1, 0, 64, 31, 0, 0, 64, 31, 0, 0, 1, 0, 8, 0]
            ++ [100, 97, 116, 97, 4, 0, 0, 0, 1, 2, 3, 4]) = some [1, 2, 3, 4] from by
          simp [extractWAVData, looksLikeWAV, riffMagic, waveMagic, findData, parseLE32,
            fmtMagic, dataMagic]]
        rw [show extractWAVData [82, 73, 70, 70, 0, 0, 0, 0, 87, 65, 86, 69, 102, 109, 116, 32,
            16, 0, 0, 0, 1, 0, 1, 0, 64, 31, 0, 0, 64, 31, 0, 0, 1, 0, 8, 0,
            100, 97, 116, 97, 2, 0, 0, 0, 5, 6] = some [5, 6] from by
          simp [extractWAVData, looksLikeWAV, riffMagic, waveMagic, findData, parseLE32,
            fmtMagic, dataMagic]]
        rfl)
      (by
        intro c hc
        simp only [List.mem_cons, List.mem_singleton] at hc
        rcases hc with rfl | rfl | h
        · rfl
        · simp [parseWAVHeader, looksLikeWAV, riffMagic, waveMagic, findFmt, parseLE32,
            fmtMagic, parseFmtBody, parseLE16]
        · cases h)
  exact ⟨out, hcomb, hriff, hlen⟩

theorem sanLoop_forbidden (s : Str) :
    ∀ b ∈ sanLoop s, b ≠ 62 ∧ b ≠ 38 ∧ b ≠ 39 ∧ b ≠ 96 := by
  induction s using sanLoop.induct with
  | case1 => simp [sanLoop]
  | case2 rest h ih =>
    intro b hb
    rw [sanLoop, if_pos rfl, if_pos h] at hb
    exact ih b hb
  | case3 rest h ih =>
    intro b hb
    rw [sanLoop, if_pos rfl, if_neg h] at hb
    rcases List.mem_cons.mp hb with rfl | hb
    · exact ⟨by omega, by omega, by omega, by omega⟩
    · exact ih b hb
  | case4 rest hcond hne ih =>
    intro b hb
    rw [sanLoop, if_neg hne, if_pos rfl, if_pos hcond] at hb
    exact ih b hb
  | case5 rest hcond hne ih =>
    intro b hb
    rw [sanLoop, if_neg hne, if_pos rfl, if_neg hcond] at hb
    rcases List.mem_cons.mp hb with rfl | hb
    · exact ⟨by omega, by omega, by omega, by omega⟩
    · exact ih b hb
  | case6 b0 rest hne60 hne38 hor ih =>
    intro b hb
    rw [sanLoop, if_neg hne60, if_neg hne38, if_pos hor] at hb
    rcases List.mem_cons.mp hb with rfl | hb
    · exact ⟨by omega, by omega, by omega, by omega⟩
    · exact ih b hb
  | case7 rest hne60 hne38 hnor ih =>
    intro b hb
    rw [sanLoop, if_neg hne60, if_neg hne38, if_neg hnor, if_pos rfl] at hb
    exact ih b hb
  | case8 b0 rest hne60 hne38 hnor hne62 ih =>
    intro b hb
    rw [sanLoop, if_neg hne60, if_neg hne38, if_neg hnor, if_neg hne62] at hb
    rcases List.mem_cons.mp hb with rfl | hb
    · refine ⟨hne62, hne38, ?_, ?_⟩ <;> (intro h; exact hnor (by omega))
    · exact ih b hb

theorem sanLoop_length_le (s : Str) : (sanLoop s).length ≤ s.length := by
  induction s using sanLoop.induct with
  | case1 => simp [sanLoop]
  | case2 rest h ih =>
    rw [sanLoop, if_pos rfl, if_pos h]
    have h1 : ((rest.dropWhile fun c => decide (c ≠ 62)).tail).length
        ≤ (rest.dropWhile fun c => decide (c ≠ 62)).length := by
      rw [List.length_tail]
      omega
    have h2 : ((rest.dropWhile fun c => decide (c ≠ 62))).length ≤ rest.length :=
      (List.dropWhile_sublist _).length_le
    simp only [List.length_cons]
    omega
  | case3 rest h ih =>
    rw [sanLoop, if_pos rfl, if_neg h]
    simp only [List.length_cons]
    omega
  | case4 rest hcond hne ih =>
    rw [sanLoop, if_neg hne, if_pos rfl, if_pos hcond]
    have : (rest.drop 10).length ≤ rest.length := by
      rw [List.length_drop]
      omega
    simp only [List.length_cons]
    omega
  | case5 rest hcond hne ih =>
    rw [sanLoop, if_neg hne, if_pos rfl, if_neg hcond]
    simp only [List.length_cons]
    omega
  | case6 b0 rest hne60 hne38 hor ih =>
    rw [sanLoop, if_neg hne60, if_neg hne38, if_pos hor]
    simp only [List.length_cons]
    omega
  | case7 rest hne60 hne38 hnor ih =>
    rw [sanLoop, if_neg hne60, if_neg hne38, if_neg hnor, if_pos rfl]
    simp only [List.length_cons]
    omega
  | case8 b0 rest hne60 hne38 hnor hne62 ih =>
    rw [sanLoop, if_neg hne60, if_neg hne38, if_neg hnor, if_neg hne62]
    simp only [List.length_cons]
    omega

theorem sanLoop_id (s : Str)
    (h : ∀ b ∈ s, b ≠ 62 ∧ b ≠ 38 ∧ b ≠ 39 ∧ b ≠ 96) : sanLoop s = s := by
  induction s with
  | nil => rw [sanLoop]
  | cons b rest ih =>
    have hb := h b (List.mem_cons_self b rest)
    have hrest : ∀ x ∈ rest, x ≠ 62 ∧ x ≠ 38 ∧ x ≠ 39 ∧ x ≠ 96 :=
      fun x hx => h x (List.mem_cons_of_mem b hx)
    by_cases h60 : b = 60
    · subst h60
      have hany : (rest.any fun c => c == 62) = false := by
        rw [List.any_eq_false]
        intro x hx
        simp only [beq_iff_eq]
        exact (hrest x hx).1
      rw [sanLoop, if_pos rfl, if_neg (by rw [hany]; simp)]
      rw [ih hrest]
    · by_cases hq : b = 34 ∨ b = 39 ∨ b = 96
      · have hb34 : b = 34 := by
          rcases hq with rfl | rfl | rfl
          · rfl
          · exact absurd rfl hb.2.2.1
          · exact absurd rfl hb.2.2.2
        subst hb34
        rw [sanLoop, if_neg h60, if_neg hb.2.1, if_pos hq, ih hrest]
      · rw [sanLoop, if_neg h60, if_neg hb.2.1, if_neg hq, if_neg hb.1, ih hrest]


theorem collapseWS_mem (l : Str) : ∀ b ∈ collapseWS l, b = 32 ∨ b ∈ l := by
  induction l using collapseWS.induct with
  | case1 => simp [collapseWS]
  | case2 b rest hws ih =>
    intro x hx
    rw [collapseWS, if_pos hws] at hx
    rcases List.mem_cons.mp hx with rfl | hx
    · exact Or.inl rfl
    · rcases ih x hx with rfl | hx
      · exact Or.inl rfl
      · exact Or.inr (List.mem_cons_of_mem b (List.dropWhile_subset _ hx))
  | case3 b rest hws ih =>
    intro x hx
    rw [collapseWS, if_neg hws] at hx
    rcases List.mem_cons.mp hx with rfl | hx
    · exact Or.inr (List.mem_cons_self _ _)
    · rcases ih x hx with rfl | hx
      · exact Or.inl rfl
      · exact Or.inr (List.mem_cons_of_mem b hx)

theorem collapseWS_ws32 (l : Str) :
    ∀ b ∈ collapseWS l, isSpaceB b = true → b = 32 := by
  induction l using collapseWS.induct with
  | case1 => simp [collapseWS]
  | case2 b rest hws ih =>
    intro x hx hxs
    rw [collapseWS, if_pos hws] at hx
    rcases List.mem_cons.mp hx with rfl | hx
    · rfl
    · exact ih x hx hxs
  | case3 b rest hws ih =>
    intro x hx hxs
    rw [collapseWS, if_neg hws] at hx
    rcases List.mem_cons.mp hx with rfl | hx
    · exact absurd hxs (by simpa using hws)
    · exact ih x hx hxs

theorem collapseWS_head_ws (m : Str) (a : Nat) (ha : (collapseWS m).head? = some a)
    (haws : isSpaceB a = true) : ∃ c, m.head? = some c ∧ isSpaceB c = true := by
  cases m with
  | nil => rw [collapseWS] at ha; cases ha
  | cons c r =>
    by_cases hws : isSpaceB c = true
    · exact ⟨c, rfl, hws⟩
    · rw [collapseWS, if_neg hws] at ha
      simp only [List.head?_cons, Option.some.injEq] at ha
      subst ha
      exact absurd haws (by simpa using hws)

theorem collapseWS_chain (l : Str) : List.Chain' noAdjWS (collapseWS l) := by
  induction l using collapseWS.induct with
  | case1 => rw [collapseWS]; exact List.chain'_nil
  | case2 b rest hws ih =>
    rw [collapseWS, if_pos hws]
    rw [List.chain'_cons']
    refine ⟨?_, ih⟩
    intro y hy _
    by_cases hyws : isSpaceB y = true
    · obtain ⟨c, hc, hcws⟩ := collapseWS_head_ws _ y hy hyws
      have := List.head?_dropWhile_not isSpaceB rest
      rw [hc] at this
      rw [this] at hcws
      cases hcws
    · simpa using hyws
  | case3 b rest hws ih =>
    rw [collapseWS, if_neg hws]
    rw [List.chain'_cons']
    refine ⟨?_, ih⟩
    intro y _ hbws
    exact absurd hbws (by simpa using hws)

theorem collapseWS_id (l : Str) (h32 : ∀ b ∈ l, isSpaceB b = true → b = 32)
    (hch : List.Chain' noAdjWS l) : collapseWS l = l := by
  induction l with
  | nil => rw [collapseWS]
  | cons b rest ih =>
    have hch' := List.chain'_cons'.mp hch
    by_cases hws : isSpaceB b = true
    · have hb32 : b = 32 := h32 b (List.mem_cons_self b rest) hws
      have hdw : rest.dropWhile isSpaceB = rest := by
        refine dropWhile_eq_self_of_head ?_
        intro a ha
        exact hch'.1 a ha hws
      rw [collapseWS, if_pos hws, hdw,
        ih (fun x hx => h32 x (List.mem_cons_of_mem b hx)) hch'.2, hb32]
    · rw [collapseWS, if_neg hws,
        ih (fun x hx => h32 x (List.mem_cons_of_mem b hx)) hch'.2]

theorem collapseWS_length_le (l : Str) : (collapseWS l).length ≤ l.length := by
  induction l using collapseWS.induct with
  | case1 => rw [collapseWS]
  | case2 b rest hws ih =>
    rw [collapseWS, if_pos hws]
    have : (rest.dropWhile isSpaceB).length ≤ rest.length :=
      (List.dropWhile_sublist _).length_le
    simp only [List.length_cons]
    omega
  | case3 b rest hws ih =>
    rw [collapseWS, if_neg hws]
    simp only [List.length_cons]
    omega

theorem chain_flip_noAdjWS {a b : Nat} (h : noAdjWS a b) : noAdjWS b a := by
  intro hb
  by_cases ha : isSpaceB a = true
  · rw [h ha] at hb
    cases hb
  · simpa using ha

theorem trimSpace_chain {l : Str} (hch : List.Chain' noAdjWS l) :
    List.Chain' noAdjWS (trimSpace l) := by
  unfold trimSpace
  have h1 : List.Chain' noAdjWS (l.dropWhile isSpaceB) :=
    hch.suffix (List.dropWhile_suffix _)
  have h2 : List.Chain' noAdjWS (l.dropWhile isSpaceB).reverse := by
    rw [List.chain'_reverse]
    exact h1.imp (fun a b hab => chain_flip_noAdjWS hab)
  have h3 : List.Chain' noAdjWS ((l.dropWhile isSpaceB).reverse.dropWhile isSpaceB) :=
    h2.suffix (List.dropWhile_suffix _)
  rw [List.chain'_reverse]
  exact h3.imp (fun a b hab => chain_flip_noAdjWS hab)

/-- C9: SanitizeText is idempotent — when it succeeds on an input of
at most 50000 bytes with output t, running it again on t succeeds and
returns t unchanged: the first pass removes every byte it ever
rewrites (>, &, quote glyphs, matched angle groups), collapses all
whitespace to isolated single spaces and trims, so the second pass
finds nothing to change. -/
theorem sanitizeText_idempotent (s t : Str) (h : SanitizeText s = some t) :
    SanitizeText t = some t := by
  unfold SanitizeText at h
  by_cases hs : s = []
  · rw [if_pos hs] at h
    have ht : t = [] := by
      cases h
      rfl
    subst ht
    rw [SanitizeText]
    simp
  · rw [if_neg hs] at h
    by_cases hlen : 50000 < s.length
    · rw [if_pos hlen] at h
      cases h
    · rw [if_neg hlen] at h
      have ht : t = trimSpace (collapseWS (sanLoop s)) := by
        cases h
        rfl
      by_cases htnil : t = []
      · subst htnil
        rw [SanitizeText]
        simp
      · have hforb : ∀ b ∈ t, b ≠ 62 ∧ b ≠ 38 ∧ b ≠ 39 ∧ b ≠ 96 := by
          intro b hb
          rw [ht] at hb
          have hbu := mem_of_mem_trimSpace hb
          rcases collapseWS_mem _ b hbu with rfl | hbs
          · exact ⟨by omega, by omega, by omega, by omega⟩
          · exact sanLoop_forbidden s b hbs
        have hws32 : ∀ b ∈ t, isSpaceB b = true → b = 32 := by
          intro b hb hbs
          rw [ht] at hb
          exact collapseWS_ws32 _ b (mem_of_mem_trimSpace hb) hbs
        have hchain : List.Chain' noAdjWS t := by
          rw [ht]
          exact trimSpace_chain (collapseWS_chain (sanLoop s))
        have hhead : ∀ a, t.head? = some a → isSpaceB a = false := by
          intro a ha
          rw [ht] at ha
          exact trimSpace_head?_not_space ha
        have hlast : ∀ a, t.getLast? = some a → isSpaceB a = false := by
          intro a ha
          rw [ht] at ha
          exact trimSpace_getLast?_not_space ha
        have htlen : t.length ≤ s.length := by
          rw [ht]
          calc (trimSpace (collapseWS (sanLoop s))).length
              ≤ (collapseWS (sanLoop s)).length := trimSpace_length_le _
            _ ≤ (sanLoop s).length := collapseWS_length_le _
            _ ≤ s.length := sanLoop_length_le s
        rw [SanitizeText, if_neg htnil, if_neg (by omega)]
        rw [sanLoop_id t hforb, collapseWS_id t hws32 hchain, trimSpace_eq_self hhead hlast]

theorem sanitizeText_idempotent_witness :
    SanitizeText [97, 32, 98] = some [97, 32, 98] :=
  sanitizeText_idempotent [60, 112, 62, 97, 32, 32, 98] [97, 32, 98]
    (by simp [SanitizeText, sanLoop, collapseWS, trimSpace, isSpaceB, stopB])

theorem foldl_inv {α β : Type} (P : β → Prop) (f : β → α → β) (l : List α) (init : β)
    (h0 : P init) (hstep : ∀ st a, a ∈ l → P st → P (f st a)) : P (l.foldl f init) := by
  induction l generalizing init with
  | nil => exact h0
  | cons a tl ih =>
    rw [List.foldl_cons]
    exact ih (f init a) (hstep init a (List.mem_cons_self a tl) h0)
      (fun st x hx hP => hstep st x (List.mem_cons_of_mem a hx) hP)

theorem splitFields_words (s : Str) : ∀ acc, (∀ b ∈ acc, isSpaceB b = false) →
    ∀ w ∈ splitFields s acc, w ≠ [] ∧ ∀ b ∈ w, isSpaceB b = false := by
  induction s with
  | nil =>
    intro acc hacc w hw
    rw [splitFields] at hw
    by_cases h : acc = []
    · rw [if_pos h] at hw
      cases hw
    · rw [if_neg h] at hw
      rw [List.mem_singleton] at hw
      subst hw
      exact ⟨by simpa using h, fun b hb => hacc b (List.mem_reverse.mp hb)⟩
  | cons b rest ih =>
    intro acc hacc w hw
    rw [splitFields] at hw
    by_cases hws : isSpaceB b = true
    · rw [if_pos hws] at hw
      by_cases h : acc = []
      · rw [if_pos h] at hw
        exact ih [] (by simp) w hw
      · rw [if_neg h] at hw
        rcases List.mem_cons.mp hw with rfl | hw
        · exact ⟨by simpa using h, fun x hx => hacc x (List.mem_reverse.mp hx)⟩
        · exact ih [] (by simp) w hw
    · rw [if_neg hws] at hw
      refine ih (b :: acc) ?_ w hw
      intro x hx
      rcases List.mem_cons.mp hx with rfl | hx
      · simpa using hws
      · exact hacc x hx

theorem splitFields_eq_nil (s : Str) : ∀ acc, splitFields s acc = [] →
    acc = [] ∧ ∀ b ∈ s, isSpaceB b = true := by
  induction s with
  | nil =>
    intro acc h
    rw [splitFields] at h
    by_cases hacc : acc = []
    · exact ⟨hacc, by simp⟩
    · rw [if_neg hacc] at h
      cases h
  | cons b rest ih =>
    intro acc h
    rw [splitFields] at h
    by_cases hws : isSpaceB b = true
    · rw [if_pos hws] at h
      by_cases hacc : acc = []
      · rw [if_pos hacc] at h
        have := ih [] h
        refine ⟨hacc, ?_⟩
        intro x hx
        rcases List.mem_cons.mp hx with rfl | hx
        · exact hws
        · exact this.2 x hx
      · rw [if_neg hacc] at h
        cases h
    · rw [if_neg hws] at h
      have := (ih (b :: acc) h).1
      cases this

theorem fields_ne_nil {s : Str} {b : Nat} (hb : b ∈ s) (hws : isSpaceB b = false) :
    fields s ≠ [] := by
  intro h
  have := (splitFields_eq_nil s [] h).2 b hb
  rw [hws] at this
  cases this

theorem mem_sliceChunks_subset {k : Nat} {s c : Str} (hc : c ∈ sliceChunksAux k s) :
    ∀ b ∈ c, b ∈ s := by
  intro b hb
  rw [← sliceChunksAux_flatten k s]
  exact List.mem_flatten_of_mem hc hb

theorem swStep_inv (m : Nat) (st : List Str × Str) (w : Str) (hm : 0 < m)
    (hw : w ≠ []) (hwb : ∀ b ∈ w, isSpaceB b = false)
    (hQ : (∀ c ∈ st.1, c.length ≤ m ∧ trimSpace c ≠ []) ∧ st.2.length ≤ m
      ∧ (st.2 = [] ∨ trimSpace st.2 ≠ [])) :
    (∀ c ∈ (swStep m st w).1, c.length ≤ m ∧ trimSpace c ≠ [])
      ∧ (swStep m st w).2.length ≤ m
      ∧ ((swStep m st w).2 = [] ∨ trimSpace (swStep m st w).2 ≠ []) := by
  obtain ⟨wb, hwbmem⟩ : ∃ b, b ∈ w := by
    cases w with
    | nil => exact absurd rfl hw
    | cons x xs => exact ⟨x, List.mem_cons_self x xs⟩
  have hwbns := hwb wb hwbmem
  unfold swStep
  by_cases htest : (if st.2 = [] then w else st.2 ++ 32 :: w).length ≤ m
  · rw [if_pos htest]
    refine ⟨hQ.1, htest, Or.inr ?_⟩
    refine trimSpace_ne_nil_of_mem ?_ hwbns
    by_cases hcur : st.2 = []
    · rw [if_pos hcur]
      exact hwbmem
    · rw [if_neg hcur]
      exact List.mem_append_right _ (List.mem_cons_of_mem 32 hwbmem)
  · rw [if_neg htest]
    have hchunks : ∀ c ∈ (if st.2 = [] then st.1 else st.1 ++ [st.2]),
        c.length ≤ m ∧ trimSpace c ≠ [] := by
      intro c hc
      by_cases hcur : st.2 = []
      · rw [if_pos hcur] at hc
        exact hQ.1 c hc
      · rw [if_neg hcur] at hc
        rcases List.mem_append.mp hc with hc | hc
        · exact hQ.1 c hc
        · rw [List.mem_singleton] at hc
          subst hc
          exact ⟨hQ.2.1, hQ.2.2.resolve_left hcur⟩
    by_cases hwlen : m < w.length
    · rw [if_pos hwlen]
      refine ⟨?_, by simp, Or.inl rfl⟩
      intro c hc
      rcases List.mem_append.mp hc with hc | hc
      · exact hchunks c hc
      · have hb := sliceChunksAux_length_bound (m - 1) w c hc
        refine ⟨by omega, ?_⟩
        obtain ⟨cb, hcb⟩ : ∃ b, b ∈ c := by
          cases c with
          | nil => exact absurd rfl hb.1
          | cons x xs => exact ⟨x, List.mem_cons_self x xs⟩
        exact trimSpace_ne_nil_of_mem hcb (hwb cb (mem_sliceChunks_subset hc cb hcb))
    · rw [if_neg hwlen]
      exact ⟨hchunks, by show w.length ≤ m; omega,
        Or.inr (trimSpace_ne_nil_of_mem hwbmem hwbns)⟩

theorem splitByWords_bound (s : Str) (m : Nat) (hm : 0 < m) :
    ∀ c ∈ splitByWords s m, c.length ≤ m ∧ trimSpace c ≠ [] := by
  unfold splitByWords
  have hinv := foldl_inv
    (P := fun st : List Str × Str => (∀ c ∈ st.1, c.length ≤ m ∧ trimSpace c ≠ [])
      ∧ st.2.length ≤ m ∧ (st.2 = [] ∨ trimSpace st.2 ≠ []))
    (swStep m) (fields s) ([], [])
    ⟨by simp, by simp, Or.inl rfl⟩
    (fun st a ha hP => by
      have hword := splitFields_words s [] (by simp) a ha
      exact swStep_inv m st a hm hword.1 hword.2 hP)
  intro c hc
  by_cases hcur : (List.foldl (swStep m) ([], []) (fields s)).2 = []
  · rw [if_pos hcur] at hc
    exact hinv.1 c hc
  · rw [if_neg hcur] at hc
    rcases List.mem_append.mp hc with hc | hc
    · exact hinv.1 c hc
    · rw [List.mem_singleton] at hc
      subst hc
      exact ⟨hinv.2.1, hinv.2.2.resolve_left hcur⟩

theorem swStep_ne (m : Nat) (st : List Str × Str) (w : Str) (hw : w ≠ []) :
    (swStep m st w).1 ≠ [] ∨ (swStep m st w).2 ≠ [] := by
  unfold swStep
  by_cases htest : (if st.2 = [] then w else st.2 ++ 32 :: w).length ≤ m
  · rw [if_pos htest]
    refine Or.inr ?_
    by_cases hcur : st.2 = []
    · rw [if_pos hcur]
      exact hw
    · rw [if_neg hcur]
      simp
  · rw [if_neg htest]
    by_cases hwlen : m < w.length
    · rw [if_pos hwlen]
      refine Or.inl ?_
      intro h
      rcases List.append_eq_nil.mp h with ⟨_, hsl⟩
      exact hw ((sliceChunksAux_eq_nil_iff (m - 1) w).mp hsl)
    · rw [if_neg hwlen]
      exact Or.inr hw

theorem splitByWords_ne_nil (s : Str) (m : Nat) (hf : fields s ≠ []) :
    splitByWords s m ≠ [] := by
  unfold splitByWords
  obtain ⟨w, ws', hfe⟩ : ∃ w ws', fields s = w :: ws' := by
    cases hfl : fields s with
    | nil => exact absurd hfl hf
    | cons a l => exact ⟨a, l, rfl⟩
  rw [hfe, List.foldl_cons]
  have hfe' : splitFields s [] = w :: ws' := hfe
  have hwne : w ≠ [] :=
    (splitFields_words s [] (by simp) w (by rw [hfe']; exact List.mem_cons_self w ws')).1
  have hR := foldl_inv (P := fun st : List Str × Str => st.1 ≠ [] ∨ st.2 ≠ [])
    (swStep m) ws' (swStep m ([], []) w)
    (swStep_ne m ([], []) w hwne)
    (fun st a ha _ => by
      have hane : a ≠ [] :=
        (splitFields_words s [] (by simp) a
          (by rw [hfe']; exact List.mem_cons_of_mem w ha)).1
      exact swStep_ne m st a hane)
  by_cases hcur : (List.foldl (swStep m) (swStep m ([], []) w) ws').2 = []
  · rw [if_pos hcur]
    rcases hR with h | h
    · exact h
    · exact absurd hcur h
  · rw [if_neg hcur]
    simp

theorem splitBySentencesAux_members (s : Str) : ∀ acc, ∀ x ∈ splitBySentencesAux s acc,
    x ≠ [] ∧ trimSpace x = x := by
  induction s with
  | nil =>
    intro acc x hx
    rw [splitBySentencesAux] at hx
    by_cases h : trimSpace acc.reverse = []
    · rw [if_pos h] at hx
      cases hx
    · rw [if_neg h] at hx
      rw [List.mem_singleton] at hx
      subst hx
      exact ⟨h, trimSpace_idem _⟩
  | cons b rest ih =>
    intro acc x hx
    rw [splitBySentencesAux] at hx
    by_cases hterm : isTermB b = true
    · rw [if_pos hterm] at hx
      by_cases h : trimSpace acc.reverse = []
      · rw [if_pos h] at hx
        exact ih [] x hx
      · rw [if_neg h] at hx
        rcases List.mem_cons.mp hx with rfl | hx
        · exact ⟨h, trimSpace_idem _⟩
        · exact ih [] x hx
    · rw [if_neg hterm] at hx
      exact ih (b :: acc) x hx

theorem pwStep_inv (m : Nat) (st : List Str × Str) (x : Str) (hm : 0 < m)
    (hP : (∀ c ∈ st.1, c.length ≤ m ∧ trimSpace c ≠ []) ∧ st.2.length ≤ m
      ∧ (st.2 = [] ∨ trimSpace st.2 ≠ [])) :
    (∀ c ∈ (pwStep m st x).1, c.length ≤ m ∧ trimSpace c ≠ [])
      ∧ (pwStep m st x).2.length ≤ m
      ∧ ((pwStep m st x).2 = [] ∨ trimSpace (pwStep m st x).2 ≠ []) := by
  unfold pwStep
  by_cases hs0 : trimSpace x = []
  · rw [if_pos hs0]
    exact hP
  · rw [if_neg hs0]
    obtain ⟨hb, hbmem, hbns⟩ : ∃ b, b ∈ trimSpace x ∧ isSpaceB b = false := by
      cases hx : trimSpace x with
      | nil => exact absurd hx hs0
      | cons y ys =>
        refine ⟨y, List.mem_cons_self y ys, ?_⟩
        have : (trimSpace x).head? = some y := by rw [hx]; rfl
        exact trimSpace_head?_not_space this
    have hbmem' : hb ∈ (if isTermB ((trimSpace x).getLastD 0) = true
        then trimSpace x else trimSpace x ++ [46]) := by
      by_cases ht : isTermB ((trimSpace x).getLastD 0) = true
      · rw [if_pos ht]
        exact hbmem
      · rw [if_neg ht]
        exact List.mem_append_left _ hbmem
    set s := if isTermB ((trimSpace x).getLastD 0) = true
      then trimSpace x else trimSpace x ++ [46] with hsdef
    by_cases htest : (if st.2 = [] then s else st.2 ++ 32 :: s).length ≤ m
    · rw [if_pos htest]
      refine ⟨hP.1, htest, Or.inr ?_⟩
      refine trimSpace_ne_nil_of_mem ?_ hbns
      by_cases hcur : st.2 = []
      · rw [if_pos hcur]
        exact hbmem'
      · rw [if_neg hcur]
        exact List.mem_append_right _ (List.mem_cons_of_mem 32 hbmem')
    · rw [if_neg htest]
      have hchunks : ∀ c ∈ (if st.2 = [] then st.1 else st.1 ++ [trimSpace st.2]),
          c.length ≤ m ∧ trimSpace c ≠ [] := by
        intro c hc
        by_cases hcur : st.2 = []
        · rw [if_pos hcur] at hc
          exact hP.1 c hc
        · rw [if_neg hcur] at hc
          rcases List.mem_append.mp hc with hc | hc
          · exact hP.1 c hc
          · rw [List.mem_singleton] at hc
            subst hc
            refine ⟨le_trans (trimSpace_length_le _) hP.2.1, ?_⟩
            rw [trimSpace_idem]
            exact hP.2.2.resolve_left hcur
      by_cases hslen : m < s.length
      · rw [if_pos hslen]
        refine ⟨?_, by show ([] : Str).length ≤ m; simp, Or.inl rfl⟩
        intro c hc
        rcases List.mem_append.mp hc with hc | hc
        · exact hchunks c hc
        · exact splitByWords_bound s m hm c hc
      · rw [if_neg hslen]
        exact ⟨hchunks, by show s.length ≤ m; omega,
          Or.inr (trimSpace_ne_nil_of_mem hbmem' hbns)⟩

theorem pwStep_ne (m : Nat) (st : List Str × Str) (x : Str) (hx : trimSpace x ≠ []) :
    (pwStep m st x).1 ≠ [] ∨ (pwStep m st x).2 ≠ [] := by
  unfold pwStep
  rw [if_neg hx]
  obtain ⟨hb, hbmem, hbns⟩ : ∃ b, b ∈ trimSpace x ∧ isSpaceB b = false := by
    cases hxe : trimSpace x with
    | nil => exact absurd hxe hx
    | cons y ys =>
      refine ⟨y, List.mem_cons_self y ys, ?_⟩
      have : (trimSpace x).head? = some y := by rw [hxe]; rfl
      exact trimSpace_head?_not_space this
  have hbmem' : hb ∈ (if isTermB ((trimSpace x).getLastD 0) = true
      then trimSpace x else trimSpace x ++ [46]) := by
    by_cases ht : isTermB ((trimSpace x).getLastD 0) = true
    · rw [if_pos ht]
      exact hbmem
    · rw [if_neg ht]
      exact List.mem_append_left _ hbmem
  set s := if isTermB ((trimSpace x).getLastD 0) = true
    then trimSpace x else trimSpace x ++ [46] with hsdef
  have hsne : s ≠ [] := List.ne_nil_of_mem hbmem'
  by_cases htest : (if st.2 = [] then s else st.2 ++ 32 :: s).length ≤ m
  · rw [if_pos htest]
    refine Or.inr ?_
    by_cases hcur : st.2 = []
    · rw [if_pos hcur]
      exact hsne
    · rw [if_neg hcur]
      simp
  · rw [if_neg htest]
    by_cases hslen : m < s.length
    · rw [if_pos hslen]
      refine Or.inl ?_
      intro h
      rcases List.append_eq_nil.mp h with ⟨_, hsw⟩
      exact splitByWords_ne_nil s m (fields_ne_nil hbmem' hbns) hsw
    · rw [if_neg hslen]
      exact Or.inr hsne

theorem pwStep_preserve_ne (m : Nat) (st : List Str × Str) (x : Str)
    (hR : st.1 ≠ [] ∨ st.2 ≠ []) :
    (pwStep m st x).1 ≠ [] ∨ (pwStep m st x).2 ≠ [] := by
  by_cases hx : trimSpace x = []
  · have : pwStep m st x = st := by
      unfold pwStep
      rw [if_pos hx]
    rw [this]
    exact hR
  · exact pwStep_ne m st x hx

theorem splitTextByLength_true_long_eq (text : Str) (m : Nat) (hnil : text ≠ [])
    (hlong : ¬text.length ≤ m) :
    SplitTextByLength text m true
      = (if (List.foldl (pwStep m) ([], []) (splitBySentences text)).2 = []
          then (List.foldl (pwStep m) ([], []) (splitBySentences text)).1
          else (List.foldl (pwStep m) ([], []) (splitBySentences text)).1
            ++ [trimSpace (List.foldl (pwStep m) ([], []) (splitBySentences text)).2]).filter
          (fun c => !(trimSpace c).isEmpty) := by
  unfold SplitTextByLength
  rw [if_neg hnil, if_neg hlong]
  rfl

/-- C7 counterexample: the five-byte input "....." survives
sanitization unchanged and is non-empty, yet with preserveWords = true
and maxLength 2 the sentence split finds no sentences (the text is all
terminators), so SplitTextByLength returns zero chunks for a non-empty
sanitized input. -/
theorem splitTextByLength_count_counterexample :
    SanitizeText [46, 46, 46, 46, 46] = some [46, 46, 46, 46, 46]
    ∧ ([46, 46, 46, 46, 46] : Str) ≠ []
    ∧ SplitTextByLength [46, 46, 46, 46, 46] 2 true = [] := by
  refine ⟨?_, by decide, ?_⟩
  · simp [SanitizeText, sanLoop, collapseWS, trimSpace, isSpaceB, stopB]
  · simp [SplitTextByLength, splitBySentences, splitBySentencesAux, trimSpace,
      isSpaceB, isTermB, pwStep]

/-- C7 amended: for maxLength m > 0 and both preserveWords settings,
every chunk emitted by SplitTextByLength is non-empty and at most m
bytes; empty input yields zero chunks; with preserveWords = false a
sanitized (trim-stable non-empty) input always yields at least one
chunk; with preserveWords = true the chunk count can be zero for a
non-empty input exactly when the sentence splitter finds no sentences
(input made only of terminator and whitespace bytes) — otherwise at
least one chunk is emitted. -/
theorem splitTextByLength_chunks_amended (text : Str) (m : Nat) (pw : Bool) (hm : 0 < m) :
    (∀ c ∈ SplitTextByLength text m pw, c ≠ [] ∧ c.length ≤ m)
    ∧ (text = [] → SplitTextByLength text m pw = [])
    ∧ (trimSpace text ≠ [] → SplitTextByLength text m false ≠ [])
    ∧ (splitBySentences text ≠ [] → SplitTextByLength text m true ≠ []) := by
  have hsent_ne_text : splitBySentences text ≠ [] → text ≠ [] := by
    intro hs htext
    subst htext
    exact hs (by simp [splitBySentences, splitBySentencesAux, trimSpace])
  refine ⟨?_, ?_, ?_, ?_⟩
  · intro c hc
    by_cases hnil : text = []
    · subst hnil
      rw [SplitTextByLength, if_pos rfl] at hc
      cases hc
    · by_cases hshort : text.length ≤ m
      · have heq : SplitTextByLength text m pw = [text] := by
          unfold SplitTextByLength
          rw [if_neg hnil, if_pos hshort]
        rw [heq, List.mem_singleton] at hc
        subst hc
        exact ⟨hnil, hshort⟩
      · cases pw with
        | false =>
          rw [splitTextByLength_false_long_eq text m hnil hshort] at hc
          have hmem : c ∈ sliceChunks text m := (List.filter_sublist _).subset hc
          have := sliceChunksAux_length_bound (m - 1) text c hmem
          exact ⟨this.1, by omega⟩
        | true =>
          rw [splitTextByLength_true_long_eq text m hnil hshort] at hc
          have hc' := (List.filter_sublist _).subset hc
          have hinv := foldl_inv
            (P := fun st : List Str × Str =>
              (∀ c ∈ st.1, c.length ≤ m ∧ trimSpace c ≠ [])
              ∧ st.2.length ≤ m ∧ (st.2 = [] ∨ trimSpace st.2 ≠ []))
            (pwStep m) (splitBySentences text) ([], [])
            ⟨by simp, by simp, Or.inl rfl⟩
            (fun st a _ hP => pwStep_inv m st a hm hP)
          have hfin : c.length ≤ m ∧ trimSpace c ≠ [] := by
            by_cases hcur : (List.foldl (pwStep m) ([], []) (splitBySentences text)).2 = []
            · rw [if_pos hcur] at hc'
              exact hinv.1 c hc'
            · rw [if_neg hcur] at hc'
              rcases List.mem_append.mp hc' with hc' | hc'
              · exact hinv.1 c hc'
              · rw [List.mem_singleton] at hc'
                subst hc'
                refine ⟨le_trans (trimSpace_length_le _) hinv.2.1, ?_⟩
                rw [trimSpace_idem]
                exact hinv.2.2.resolve_left hcur
          refine ⟨?_, hfin.1⟩
          intro hcn
          subst hcn
          exact hfin.2 rfl
  · intro hnil
    rw [SplitTextByLength, if_pos hnil]
  · intro htrim
    have hnil : text ≠ [] := by
      intro h
      subst h
      exact htrim rfl
    by_cases hshort : text.length ≤ m
    · have heq : SplitTextByLength text m false = [text] := by
        unfold SplitTextByLength
        rw [if_neg hnil, if_pos hshort]
      rw [heq]
      simp
    · rw [splitTextByLength_false_long_eq text m hnil hshort]
      obtain ⟨b, hbmem, hbns⟩ : ∃ b, b ∈ text ∧ isSpaceB b = false := by
        by_contra hall
        push_neg at hall
        refine htrim (trimSpace_eq_nil_iff.mpr ?_)
        intro x hx
        have := hall x hx
        revert this
        cases isSpaceB x <;> simp
      have hbflat : b ∈ (sliceChunks text m).flatten := by
        have hfl : (sliceChunks text m).flatten = text := sliceChunksAux_flatten (m - 1) text
        rw [hfl]
        exact hbmem
      obtain ⟨sl, hslmem, hbsl⟩ := List.mem_flatten.mp hbflat
      have hslf : sl ∈ (sliceChunks text m).filter (fun c => !(trimSpace c).isEmpty) := by
        rw [List.mem_filter]
        refine ⟨hslmem, ?_⟩
        have := trimSpace_ne_nil_of_mem hbsl hbns
        simpa [List.isEmpty_iff] using this
      exact List.ne_nil_of_mem hslf
  · intro hsent
    have hnil : text ≠ [] := hsent_ne_text hsent
    by_cases hshort : text.length ≤ m
    · have heq : SplitTextByLength text m true = [text] := by
        unfold SplitTextByLength
        rw [if_neg hnil, if_pos hshort]
      rw [heq]
      simp
    · rw [splitTextByLength_true_long_eq text m hnil hshort]
      obtain ⟨x, xs, hse⟩ : ∃ x xs, splitBySentences text = x :: xs := by
        cases hsl : splitBySentences text with
        | nil => exact absurd hsl hsent
        | cons a l => exact ⟨a, l, rfl⟩
      have hxmem := splitBySentencesAux_members text [] x
        (by rw [show splitBySentencesAux text [] = x :: xs from hse]
            exact List.mem_cons_self x xs)
      have hinv := foldl_inv
        (P := fun st : List Str × Str =>
          (∀ c ∈ st.1, c.length ≤ m ∧ trimSpace c ≠ [])
          ∧ st.2.length ≤ m ∧ (st.2 = [] ∨ trimSpace st.2 ≠ []))
        (pwStep m) (splitBySentences text) ([], [])
        ⟨by simp, by simp, Or.inl rfl⟩
        (fun st a _ hP => pwStep_inv m st a hm hP)
      have hR : (List.foldl (pwStep m) ([], []) (splitBySentences text)).1 ≠ []
          ∨ (List.foldl (pwStep m) ([], []) (splitBySentences text)).2 ≠ [] := by
        rw [hse, List.foldl_cons]
        exact foldl_inv (P := fun st : List Str × Str => st.1 ≠ [] ∨ st.2 ≠ [])
          (pwStep m) xs (pwStep m ([], []) x)
          (pwStep_ne m ([], []) x (by rw [hxmem.2]; exact hxmem.1))
          (fun st a _ hP => pwStep_preserve_ne m st a hP)
      have hall : ∀ c ∈ (if (List.foldl (pwStep m) ([], []) (splitBySentences text)).2 = []
          then (List.foldl (pwStep m) ([], []) (splitBySentences text)).1
          else (List.foldl (pwStep m) ([], []) (splitBySentences text)).1
            ++ [trimSpace (List.foldl (pwStep m) ([], []) (splitBySentences text)).2]),
          (!(trimSpace c).isEmpty) = true := by
        intro c hc
        have hck : trimSpace c ≠ [] := by
          by_cases hcur : (List.foldl (pwStep m) ([], []) (splitBySentences text)).2 = []
          · rw [if_pos hcur] at hc
            exact (hinv.1 c hc).2
          · rw [if_neg hcur] at hc
            rcases List.mem_append.mp hc with hc | hc
            · exact (hinv.1 c hc).2
            · rw [List.mem_singleton] at hc
              subst hc
              rw [trimSpace_idem]
              exact hinv.2.2.resolve_left hcur
        simpa [List.isEmpty_iff] using hck
      rw [List.filter_eq_self.mpr hall]
      by_cases hcur : (List.foldl (pwStep m) ([], []) (splitBySentences text)).2 = []
      · rw [if_pos hcur]
        exact hR.resolve_right (by simpa using hcur)
      · rw [if_neg hcur]
        simp

theorem splitTextByLength_chunks_amended_witness :
    (0 : Nat) < 3
    ∧ trimSpace [97, 98, 99, 100, 101] ≠ []
    ∧ SplitTextByLength [97, 98, 99, 100, 101] 3 false ≠ [] :=
  ⟨by decide, by decide,
    (splitTextByLength_chunks_amended [97, 98, 99, 100, 101] 3 false (by decide)).2.2.1
      (by decide)⟩
